import Mathlib

/-!
Verification of the Job-finder ingestion core: a shallow embedding of the
storage layer (src/job_finder/storage.py), the resume-to-description matcher
(src/job_finder/matching.py), the location normalizer
(src/job_finder/location_utils.py) and the source adapters
(src/job_finder/scrapers/), together with theorems settling the spec claims.
-/

namespace JobFinder

/-- A job posting record (src/job_finder/models.py, dataclass Job).
Timestamps are modelled by their ISO strings; posted_date and description
are optional. -/
structure Job where
  id : String
  company : String
  title : String
  location : String
  url : String
  department : String
  posted_date : Option String
  first_seen : String
  description : Option String
deriving DecidableEq, Repr

namespace Storage

/-- One row of the jobs table (src/job_finder/storage.py, CREATE TABLE jobs):
columns id, company, title, location, url, department, posted_date, first_seen,
with PRIMARY KEY (id, company). -/
structure Row where
  id : String
  company : String
  title : String
  location : String
  url : String
  department : String
  posted_date : Option String
  first_seen : String
deriving DecidableEq, Repr

/-- The jobs table, rows in insertion order. -/
abbrev Store := List Row

/-- The row INSERTed by add_jobs for a job (isoformat of a timestamp is
modelled as the identity on its ISO string). -/
def Row.ofJob (j : Job) : Row :=
  ⟨j.id, j.company, j.title, j.location, j.url, j.department, j.posted_date, j.first_seen⟩

/-- Whether the table already holds a row with PRIMARY KEY (id, company).
An INSERT of such a key raises sqlite3.IntegrityError, which add_jobs
catches and turns into a silent skip. -/
def hasIdentity (store : Store) (i c : String) : Bool :=
  store.any fun r => i == r.id && c == r.company

/-- JobStorage.get_known_job_ids: SELECT id FROM jobs WHERE company = ?. -/
def get_known_job_ids (store : Store) (company : String) : List String :=
  (store.filter fun r => r.company == company).map Row.id

/-- JobStorage.add_jobs: insert each job of the batch in order; a duplicate
(id, company) key raises IntegrityError which is caught and skipped.
Returns the updated table and the list of jobs actually inserted. -/
def add_jobs (store : Store) (jobs : List Job) : Store × List Job :=
  jobs.foldl
    (fun st j =>
      if hasIdentity st.1 j.id j.company then st
      else (st.1 ++ [Row.ofJob j], st.2 ++ [j]))
    (store, [])

/-- The grouping jobs_by_company built by find_new_jobs via
setdefault(...).append(...): a Python dict keyed by company, keys in first
insertion order, each group in batch order. -/
def addToGroups (gs : List (String × List Job)) (j : Job) : List (String × List Job) :=
  match gs with
  | [] => [(j.company, [j])]
  | (c, l) :: rest =>
    if c == j.company then (c, l ++ [j]) :: rest
    else (c, l) :: addToGroups rest j

/-- The full grouping of a batch by company. -/
def groupByCompany (jobs : List Job) : List (String × List Job) :=
  jobs.foldl addToGroups []

/-- JobStorage.find_new_jobs: group the batch by company, fetch the known ids
for each company once, and keep the jobs whose id is not among them. -/
def find_new_jobs (store : Store) (jobs : List Job) : List Job :=
  if jobs = [] then []
  else
    (groupByCompany jobs).foldl
      (fun acc g => acc ++ g.2.filter fun j => !((get_known_job_ids store g.1).contains j.id))
      []

/-- JobStorage.get_job: SELECT * FROM jobs WHERE id = ? AND company = ?,
first matching row; rebuilds a Job from the row. The jobs table stores no
description column, so the rebuilt Job carries none. -/
def get_job (store : Store) (i c : String) : Option Job :=
  match store.find? (fun r => r.id == i && r.company == c) with
  | some r => some ⟨r.id, r.company, r.title, r.location, r.url, r.department, r.posted_date, r.first_seen, none⟩
  | none => none

/-! Lemmas about grouping. -/

theorem mem_addToGroups (gs : List (String × List Job)) (j0 j : Job) :
    (∃ g ∈ addToGroups gs j0, j ∈ g.2) ↔ (∃ g ∈ gs, j ∈ g.2) ∨ j = j0 := by
  induction gs with
  | nil =>
    simp [addToGroups]
  | cons hd tl ih =>
    obtain ⟨c, l⟩ := hd
    by_cases hc : c == j0.company
    · simp only [addToGroups, hc, if_pos]
      constructor
      · rintro ⟨g, hg, hjg⟩
        rcases List.mem_cons.mp hg with rfl | hgtl
        · rcases List.mem_append.mp hjg with h1 | h2
          · exact Or.inl ⟨(c, l), List.mem_cons_self _ _, h1⟩
          · simp at h2; exact Or.inr h2
        · exact Or.inl ⟨g, List.mem_cons_of_mem _ hgtl, hjg⟩
      · rintro (⟨g, hg, hjg⟩ | rfl)
        · rcases List.mem_cons.mp hg with rfl | hgtl
          · exact ⟨(c, l ++ [j0]), List.mem_cons_self _ _, List.mem_append.mpr (Or.inl hjg)⟩
          · exact ⟨g, List.mem_cons_of_mem _ hgtl, hjg⟩
        · exact ⟨(c, l ++ [j]), List.mem_cons_self _ _, List.mem_append.mpr (Or.inr (by simp))⟩
    · simp only [addToGroups, hc, if_neg, Bool.false_eq_true, not_false_iff]
      constructor
      · rintro ⟨g, hg, hjg⟩
        rcases List.mem_cons.mp hg with rfl | hgtl
        · exact Or.inl ⟨(c, l), List.mem_cons_self _ _, hjg⟩
        · rcases (ih.mp ⟨g, hgtl, hjg⟩) with ⟨g2, hg2, hjg2⟩ | rfl
          · exact Or.inl ⟨g2, List.mem_cons_of_mem _ hg2, hjg2⟩
          · exact Or.inr rfl
      · rintro (⟨g, hg, hjg⟩ | rfl)
        · rcases List.mem_cons.mp hg with rfl | hgtl
          · exact ⟨(c, l), List.mem_cons_self _ _, hjg⟩
          · obtain ⟨g2, hg2, hjg2⟩ := ih.mpr (Or.inl ⟨g, hgtl, hjg⟩)
            exact ⟨g2, List.mem_cons_of_mem _ hg2, hjg2⟩
        · obtain ⟨g2, hg2, hjg2⟩ := ih.mpr (Or.inr rfl)
          exact ⟨g2, List.mem_cons_of_mem _ hg2, hjg2⟩

theorem mem_foldl_addToGroups (jobs : List Job) :
    ∀ (acc : List (String × List Job)) (j : Job),
    (∃ g ∈ jobs.foldl addToGroups acc, j ∈ g.2) ↔ (∃ g ∈ acc, j ∈ g.2) ∨ j ∈ jobs := by
  induction jobs with
  | nil => intro acc j; simp
  | cons hd tl ih =>
    intro acc j
    simp only [List.foldl_cons]
    rw [ih (addToGroups acc hd) j, mem_addToGroups]
    constructor
    · rintro ((h | rfl) | h)
      · exact Or.inl h
      · exact Or.inr (List.mem_cons_self _ _)
      · exact Or.inr (List.mem_cons_of_mem _ h)
    · rintro (h | h)
      · exact Or.inl (Or.inl h)
      · rcases List.mem_cons.mp h with rfl | htl
        · exact Or.inl (Or.inr rfl)
        · exact Or.inr htl

theorem addToGroups_company (gs : List (String × List Job)) (j0 : Job)
    (h : ∀ g ∈ gs, ∀ j ∈ g.2, j.company = g.1) :
    ∀ g ∈ addToGroups gs j0, ∀ j ∈ g.2, j.company = g.1 := by
  induction gs with
  | nil =>
    intro g hg j hj
    simp [addToGroups] at hg
    subst hg
    simp at hj
    subst hj
    rfl
  | cons hd tl ih =>
    obtain ⟨c, l⟩ := hd
    by_cases hc : c == j0.company
    · simp only [addToGroups, hc, if_pos]
      intro g hg j hj
      rcases List.mem_cons.mp hg with rfl | hgtl
      · rcases List.mem_append.mp hj with h1 | h2
        · exact h (c, l) (List.mem_cons_self _ _) j h1
        · simp at h2; subst h2
          exact (beq_iff_eq.mp hc).symm
      · exact h g (List.mem_cons_of_mem _ hgtl) j hj
    · simp only [addToGroups, hc, if_neg, Bool.false_eq_true, not_false_iff]
      intro g hg j hj
      rcases List.mem_cons.mp hg with rfl | hgtl
      · exact h (c, l) (List.mem_cons_self _ _) j hj
      · exact ih (fun g2 hg2 => h g2 (List.mem_cons_of_mem _ hg2)) g hgtl j hj

theorem groupByCompany_company (jobs : List Job) :
    ∀ g ∈ groupByCompany jobs, ∀ j ∈ g.2, j.company = g.1 := by
  suffices h : ∀ (acc : List (String × List Job)),
      (∀ g ∈ acc, ∀ j ∈ g.2, j.company = g.1) →
      ∀ g ∈ jobs.foldl addToGroups acc, ∀ j ∈ g.2, j.company = g.1 by
    exact h [] (by simp)
  induction jobs with
  | nil => intro acc hacc; simpa using hacc
  | cons hd tl ih =>
    intro acc hacc
    simp only [List.foldl_cons]
    exact ih (addToGroups acc hd) (addToGroups_company acc hd hacc)

theorem foldl_append_flatMap {α β : Type} (f : α → List β) (l : List α) :
    ∀ (init : List β),
    l.foldl (fun acc g => acc ++ f g) init = init ++ l.flatMap f := by
  induction l with
  | nil => intro init; simp
  | cons hd tl ih =>
    intro init
    simp only [List.foldl_cons, List.flatMap_cons]
    rw [ih (init ++ f hd)]
    simp [List.append_assoc]

/-- Membership characterization of find_new_jobs: a job is returned exactly
when it is in the batch and its id is not known for its own company. -/
theorem mem_find_new_jobs (store : Store) (jobs : List Job) (j : Job) :
    j ∈ find_new_jobs store jobs ↔
      j ∈ jobs ∧ ¬ j.id ∈ get_known_job_ids store j.company := by
  unfold find_new_jobs
  by_cases hnil : jobs = []
  · subst hnil; simp
  · simp only [hnil, if_neg, not_false_iff]
    rw [foldl_append_flatMap]
    simp only [List.nil_append, List.mem_flatMap, List.mem_filter]
    constructor
    · rintro ⟨g, hg, hjg, hfilt⟩
      have hco := groupByCompany_company jobs g hg j hjg
      have hmem : j ∈ jobs := (mem_foldl_addToGroups jobs [] j).mp ⟨g, hg, hjg⟩ |>.resolve_left (by simp)
      refine ⟨hmem, ?_⟩
      rw [← hco] at hfilt
      simpa [List.contains_eq_any_beq, List.any_eq_true] using hfilt
    · rintro ⟨hmem, hknown⟩
      obtain ⟨g, hg, hjg⟩ := (mem_foldl_addToGroups jobs [] j).mpr (Or.inr hmem)
      have hco := groupByCompany_company jobs g hg j hjg
      refine ⟨g, hg, hjg, ?_⟩
      rw [← hco]
      simpa [List.contains_eq_any_beq, List.any_eq_true] using hknown

/-! Lemmas about add_jobs. -/

theorem hasIdentity_append (store t : Store) (i c : String)
    (h : hasIdentity store i c = true) : hasIdentity (store ++ t) i c = true := by
  simp only [hasIdentity, List.any_eq_true] at h ⊢
  obtain ⟨r, hr, hrc⟩ := h
  exact ⟨r, List.mem_append.mpr (Or.inl hr), hrc⟩

theorem add_jobs_fst_aux (jobs : List Job) :
    ∀ (st : Store) (acc : List Job), ∃ t, (jobs.foldl
      (fun st j =>
        if hasIdentity st.1 j.id j.company then st
        else (st.1 ++ [Row.ofJob j], st.2 ++ [j]))
      (st, acc)).1 = st ++ t := by
  induction jobs with
  | nil => intro st acc; exact ⟨[], by simp⟩
  | cons hd tl ih =>
    intro st acc
    simp only [List.foldl_cons]
    by_cases h : hasIdentity st hd.id hd.company
    · simp only [h, if_pos]
      exact ih st acc
    · simp only [h, if_neg, Bool.false_eq_true, not_false_iff]
      obtain ⟨t, ht⟩ := ih (st ++ [Row.ofJob hd]) (acc ++ [hd])
      exact ⟨[Row.ofJob hd] ++ t, by rw [ht, List.append_assoc]⟩

theorem hasIdentity_add_jobs_mono (jobs : List Job) (st : Store)
    (i c : String) (h : hasIdentity st i c = true) :
    hasIdentity ((add_jobs st jobs).1) i c = true := by
  unfold add_jobs
  obtain ⟨t, ht⟩ := add_jobs_fst_aux jobs st []
  rw [ht]
  exact hasIdentity_append st t i c h

theorem hasIdentity_after_add (jobs : List Job) :
    ∀ (st : Store) (acc : List Job) (j : Job), j ∈ jobs →
    hasIdentity ((jobs.foldl
      (fun st j =>
        if hasIdentity st.1 j.id j.company then st
        else (st.1 ++ [Row.ofJob j], st.2 ++ [j]))
      (st, acc)).1) j.id j.company = true := by
  induction jobs with
  | nil => intro st acc j hj; simp at hj
  | cons hd tl ih =>
    intro st acc j hj
    simp only [List.foldl_cons]
    have step : ∀ (st2 : Store) (acc2 : List Job),
        hasIdentity st2 j.id j.company = true →
        hasIdentity ((tl.foldl
          (fun st j =>
            if hasIdentity st.1 j.id j.company then st
            else (st.1 ++ [Row.ofJob j], st.2 ++ [j]))
          (st2, acc2)).1) j.id j.company = true := by
      intro st2 acc2 hknown
      obtain ⟨t, ht⟩ := add_jobs_fst_aux tl st2 acc2
      rw [ht]
      exact hasIdentity_append st2 t _ _ hknown
    rcases List.mem_cons.mp hj with rfl | htl
    · by_cases h : hasIdentity st j.id j.company
      · simp only [h, if_pos]
        exact step st acc h
      · simp only [h, if_neg, Bool.false_eq_true, not_false_iff]
        apply step
        simp [hasIdentity, Row.ofJob, List.any_eq_true]
    · by_cases h : hasIdentity st hd.id hd.company
      · simp only [h, if_pos]
        exact ih st acc j htl
      · simp only [h, if_neg, Bool.false_eq_true, not_false_iff]
        exact ih _ _ j htl

theorem hasIdentity_iff_known (store : Store) (i c : String) :
    hasIdentity store i c = true ↔ i ∈ get_known_job_ids store c := by
  simp only [hasIdentity, List.any_eq_true, get_known_job_ids, List.mem_map,
    List.mem_filter, Bool.and_eq_true, beq_iff_eq]
  constructor
  · rintro ⟨r, hr, rfl, rfl⟩
    exact ⟨r, ⟨hr, rfl⟩, rfl⟩
  · rintro ⟨r, ⟨hr, hrc⟩, hri⟩
    exact ⟨r, hr, hri.symm, hrc.symm⟩

theorem mem_add_jobs_snd (jobs : List Job) :
    ∀ (st : Store) (acc : List Job) (x : Job),
    x ∈ (jobs.foldl
      (fun st j =>
        if hasIdentity st.1 j.id j.company then st
        else (st.1 ++ [Row.ofJob j], st.2 ++ [j]))
      (st, acc)).2 →
    x ∈ acc ∨ (x ∈ jobs ∧ hasIdentity st x.id x.company = false) := by
  induction jobs with
  | nil => intro st acc x hx; simp at hx; exact Or.inl hx
  | cons hd tl ih =>
    intro st acc x hx
    simp only [List.foldl_cons] at hx
    by_cases h : hasIdentity st hd.id hd.company
    · simp only [h, if_pos] at hx
      rcases ih st acc x hx with h1 | ⟨h2, h3⟩
      · exact Or.inl h1
      · exact Or.inr ⟨List.mem_cons_of_mem _ h2, h3⟩
    · simp only [h, if_neg, Bool.false_eq_true, not_false_iff] at hx
      rcases ih _ _ x hx with h1 | ⟨h2, h3⟩
      · rcases List.mem_append.mp h1 with ha | hb
        · exact Or.inl ha
        · simp only [List.mem_singleton] at hb
          subst hb
          exact Or.inr ⟨List.mem_cons_self _ _, by simpa using h⟩
      · have hst : hasIdentity st x.id x.company = false := by
          by_contra hcon
          have htrue : hasIdentity st x.id x.company = true := by
            cases hb : hasIdentity st x.id x.company
            · exact absurd hb hcon
            · rfl
          have := hasIdentity_append st [Row.ofJob hd] x.id x.company htrue
          rw [this] at h3
          exact Bool.true_eq_false.mp h3
        exact Or.inr ⟨List.mem_cons_of_mem _ h2, hst⟩

theorem find?_append_of_some {α : Type} (p : α → Bool) (l t : List α) (r : α)
    (h : l.find? p = some r) : (l ++ t).find? p = some r := by
  induction l with
  | nil => simp [List.find?] at h
  | cons hd tl ih =>
    by_cases hp : p hd
    · rw [List.find?_cons_of_pos _ hp] at h
      rw [List.cons_append, List.find?_cons_of_pos _ hp]
      exact h
    · rw [List.find?_cons_of_neg _ hp] at h
      rw [List.cons_append, List.find?_cons_of_neg _ hp]
      exact ih h

/-- C1: Novelty convergence.  For a store with no prior postings for any of
the batch's companies, find_new_jobs returns exactly the members of the
batch; and after add_jobs persists the batch, a second find_new_jobs on the
same batch returns the empty list. -/
theorem C1_novelty_convergence (store : Store) (batch : List Job)
    (h : ∀ j ∈ batch, get_known_job_ids store j.company = []) :
    (∀ j, j ∈ find_new_jobs store batch ↔ j ∈ batch) ∧
    find_new_jobs (add_jobs store batch).1 batch = [] := by
  constructor
  · intro j
    rw [mem_find_new_jobs]
    constructor
    · exact fun hx => hx.1
    · intro hj
      refine ⟨hj, ?_⟩
      rw [h j hj]
      simp
  · rw [List.eq_nil_iff_forall_not_mem]
    intro j
    rw [mem_find_new_jobs]
    rintro ⟨hj, hknown⟩
    apply hknown
    rw [← hasIdentity_iff_known]
    unfold add_jobs
    exact hasIdentity_after_add batch store [] j hj

/-- A sample posting used to instantiate the storage theorems. -/
def jobW : Job :=
  ⟨"123", "acme", "Engineer", "Remote", "https://acme.example/123", "", none, "2026-01-01T00:00:00", some "first description"⟩

/-- The same identity pair as jobW with different attributes. -/
def jobW2 : Job :=
  ⟨"123", "acme", "Engineer II", "NYC", "https://acme.example/123b", "Eng", none, "2026-01-02T00:00:00", some "second description"⟩

theorem C1_witness :
    (∀ j ∈ [jobW], get_known_job_ids ([] : Store) j.company = []) ∧
    ((∀ j, j ∈ find_new_jobs ([] : Store) [jobW] ↔ j ∈ [jobW]) ∧
     find_new_jobs (add_jobs ([] : Store) [jobW]).1 [jobW] = []) :=
  ⟨by decide, C1_novelty_convergence ([] : Store) [jobW] (by decide)⟩

/-- C3: Persistence is idempotent and first-write-wins.  If the store already
holds a row with a posting's identity pair (id, company), then add_jobs never
reports any job with that identity as newly inserted (the duplicate INSERT is
a silent no-op: the IntegrityError is caught), and get_job for that identity
afterwards returns exactly what it returned before the call. -/
theorem C3_add_jobs_idempotent (store : Store) (jobs : List Job) (j : Job)
    (h : hasIdentity store j.id j.company = true) :
    (∀ x ∈ (add_jobs store jobs).2, ¬(x.id = j.id ∧ x.company = j.company)) ∧
    get_job (add_jobs store jobs).1 j.id j.company = get_job store j.id j.company := by
  constructor
  · intro x hx hxid
    unfold add_jobs at hx
    rcases mem_add_jobs_snd jobs store [] x hx with h1 | ⟨_, h3⟩
    · simp at h1
    · rw [hxid.1, hxid.2] at h3
      rw [h] at h3
      exact Bool.true_eq_false.mp h3
  · obtain ⟨t, ht⟩ := add_jobs_fst_aux jobs store []
    have hsome : ∃ r, store.find? (fun r => r.id == j.id && r.company == j.company) = some r := by
      have hs : (store.find? (fun r => r.id == j.id && r.company == j.company)).isSome := by
        rw [List.find?_isSome]
        simp only [hasIdentity, List.any_eq_true, Bool.and_eq_true, beq_iff_eq] at h
        obtain ⟨r, hrmem, hr1, hr2⟩ := h
        exact ⟨r, hrmem, by simp [hr1.symm, hr2.symm]⟩
      exact Option.isSome_iff_exists.mp hs
    obtain ⟨r, hr⟩ := hsome
    unfold add_jobs
    rw [ht]
    unfold get_job
    rw [find?_append_of_some _ _ _ _ hr, hr]

theorem C3_witness :
    hasIdentity [Row.ofJob jobW] jobW2.id jobW2.company = true ∧
    ((∀ x ∈ (add_jobs [Row.ofJob jobW] [jobW2]).2, ¬(x.id = jobW2.id ∧ x.company = jobW2.company)) ∧
     get_job (add_jobs [Row.ofJob jobW] [jobW2]).1 jobW2.id jobW2.company = get_job [Row.ofJob jobW] jobW2.id jobW2.company) :=
  ⟨by decide, C3_add_jobs_idempotent [Row.ofJob jobW] [jobW2] jobW2 (by decide)⟩

end Storage

namespace Matching

/-- PM_SKILL_KEYWORDS from src/job_finder/matching.py, in source order. -/
def PM_SKILL_KEYWORDS : List String := [
  "product management", "product strategy", "product roadmap", "roadmap",
  "product vision", "product lifecycle", "product development",
  "product discovery", "product analytics", "product ops",
  "stakeholder management", "cross-functional", "leadership",
  "team management", "executive communication", "influence without authority",
  "agile", "scrum", "kanban", "lean", "waterfall", "safe",
  "design thinking", "jobs to be done", "jtbd",
  "data analysis", "data-driven", "sql", "a/b testing", "ab testing",
  "experimentation", "hypothesis", "metrics", "kpis", "okrs",
  "quantitative", "qualitative", "user research", "market research",
  "competitive analysis", "business analysis",
  "api", "apis", "saas", "b2b", "b2c", "platform", "infrastructure",
  "machine learning", "ml", "ai", "artificial intelligence",
  "cloud", "aws", "gcp", "azure", "microservices", "system design",
  "technical requirements", "prd", "product requirements",
  "specifications", "spec", "technical specification",
  "user experience", "ux", "ui", "user interface", "wireframes",
  "prototyping", "usability", "accessibility", "figma",
  "user stories", "user flows", "journey mapping",
  "go-to-market", "gtm", "pricing", "monetization", "revenue",
  "growth", "acquisition", "retention", "engagement", "conversion",
  "funnel", "p&l", "business case", "roi", "market sizing", "tam",
  "presentations", "documentation", "storytelling",
  "requirements gathering", "sprint planning", "backlog",
  "prioritization", "trade-offs", "decision making",
  "jira", "confluence", "asana", "notion", "linear",
  "amplitude", "mixpanel", "tableau", "looker", "google analytics",
  "salesforce", "hubspot",
  "fintech", "payments", "e-commerce", "ecommerce", "healthcare",
  "enterprise", "marketplace", "security", "compliance"]

/-- STOP_WORDS from src/job_finder/matching.py. -/
def STOP_WORDS : List String := [
  "a", "an", "the", "and", "or", "but", "in", "on", "at", "to", "for",
  "of", "with", "by", "from", "is", "it", "as", "be", "was", "were",
  "are", "been", "has", "had", "have", "do", "did", "does", "will",
  "would", "could", "should", "may", "might", "can", "this", "that",
  "these", "those", "i", "me", "my", "we", "our", "you", "your",
  "he", "she", "his", "her", "they", "their", "them", "its",
  "not", "no", "so", "if", "then", "than", "also", "just", "about",
  "up", "out", "all", "more", "some", "such", "into", "over", "after",
  "before", "between", "through", "during", "each", "very", "most",
  "other", "own", "same", "both", "only", "new", "work", "working",
  "ability", "able", "experience", "including", "well", "strong",
  "team", "role", "company", "job", "position", "candidate",
  "responsibilities", "requirements", "qualifications", "years",
  "etc", "e.g", "i.e"]

/-- Python substring containment helper: startsWithL pat s is true when s
begins with pat (character for character). -/
def startsWithL : List Char → List Char → Bool
  | [], _ => true
  | _ :: _, [] => false
  | p :: ps, c :: cs => p == c && startsWithL ps cs

/-- Python `pat in s` on character lists. -/
def isSubstrOf (pat : List Char) : List Char → Bool
  | [] => pat.isEmpty
  | s@(_ :: rest) => startsWithL pat s || isSubstrOf pat rest

/-- First character class of the token pattern [a-z][a-z\-]+. -/
def isTokStart (c : Char) : Bool := 'a' ≤ c && c ≤ 'z'

/-- Continuation character class of the token pattern [a-z][a-z\-]+. -/
def isTokChar (c : Char) : Bool := isTokStart c || c == '-'

theorem length_dropWhile_le_char (p : Char → Bool) :
    ∀ l : List Char, (l.dropWhile p).length ≤ l.length := by
  intro l
  induction l with
  | nil => simp [List.dropWhile]
  | cons hd tl ih =>
    by_cases h : p hd
    · simp only [List.dropWhile, h]
      exact Nat.le_trans ih (Nat.le_succ _)
    · simp only [List.dropWhile, h]
      simp

/-- Fuel-driven worker for findTokens.  Every recursive call shortens the
list, so fuel equal to the list length never runs out. -/
def findTokensF : Nat → List Char → List (List Char)
  | 0, _ => []
  | _ + 1, [] => []
  | _ + 1, [_] => []
  | f + 1, c :: d :: rest =>
    if isTokStart c then
      if isTokChar d then
        (c :: (d :: rest).takeWhile isTokChar) :: findTokensF f ((d :: rest).dropWhile isTokChar)
      else findTokensF f (d :: rest)
    else findTokensF f (d :: rest)

/-- re.findall applied with the pattern [a-z][a-z\-]+: the leftmost
non-overlapping maximal matches, each at least two characters long. -/
def findTokens (l : List Char) : List (List Char) :=
  findTokensF l.length l

theorem findTokensF_stable : ∀ (f g : Nat) (l : List Char), l.length ≤ f → l.length ≤ g →
    findTokensF f l = findTokensF g l := by
  intro f
  induction f with
  | zero =>
    intro g l hf _
    have : l = [] := List.eq_nil_of_length_eq_zero (Nat.le_zero.mp hf)
    subst this
    cases g <;> rfl
  | succ f ih =>
    intro g l hf hg
    match l, g with
    | [], 0 => rfl
    | [], _ + 1 => rfl
    | [_], 0 => simp at hg
    | [_], _ + 1 => rfl
    | c :: d :: rest, 0 => simp at hg
    | c :: d :: rest, g + 1 =>
      simp only [List.length_cons] at hf hg
      have hdrop : ((d :: rest).dropWhile isTokChar).length ≤ rest.length + 1 := by
        have := length_dropWhile_le_char isTokChar (d :: rest)
        simpa using this
      by_cases hc : isTokStart c
      · by_cases hd : isTokChar d
        · simp only [findTokensF, hc, hd, if_pos]
          rw [ih g _ (by omega) (by omega)]
        · simp only [findTokensF, hc, hd, if_pos, Bool.false_eq_true, if_neg, not_false_iff]
          exact ih g (d :: rest) (by simp; omega) (by simp; omega)
      · simp only [findTokensF, hc, Bool.false_eq_true, if_neg, not_false_iff]
        exact ih g (d :: rest) (by simp; omega) (by simp; omega)

theorem findTokens_nil : findTokens [] = [] := rfl

theorem findTokens_one (c : Char) : findTokens [c] = [] := rfl

/-- One-step unfolding of findTokens on a list of length at least two. -/
theorem findTokens_cons2 (c d : Char) (rest : List Char) :
    findTokens (c :: d :: rest) =
      if isTokStart c then
        if isTokChar d then
          (c :: (d :: rest).takeWhile isTokChar) :: findTokens ((d :: rest).dropWhile isTokChar)
        else findTokens (d :: rest)
      else findTokens (d :: rest) := by
  have hdrop : ((d :: rest).dropWhile isTokChar).length ≤ rest.length + 1 := by
    have := length_dropWhile_le_char isTokChar (d :: rest)
    simpa using this
  show findTokensF (c :: d :: rest).length (c :: d :: rest) = _
  simp only [List.length_cons, findTokensF]
  by_cases hc : isTokStart c
  · by_cases hd : isTokChar d
    · simp only [hc, hd, if_pos]
      rw [findTokensF_stable _ _ _ (by omega) (Nat.le_refl _)]
      rfl
    · simp only [hc, hd, if_pos, Bool.false_eq_true, if_neg, not_false_iff]
      exact findTokensF_stable _ _ _ (by simp) (by simp)
  · simp only [hc, Bool.false_eq_true, if_neg, not_false_iff]
    exact findTokensF_stable _ _ _ (by simp) (by simp)

/-- extract_keywords from src/job_finder/matching.py: lower-case the text,
collect every curated skill phrase occurring as a substring, then every
non-stop-word alphabetic token longer than two characters.  Python str.lower
is modelled on ASCII by Char.toLower (all keyword data is ASCII). -/
def extract_keywords (text : String) : Finset String :=
  let tl := text.data.map Char.toLower
  let skills := PM_SKILL_KEYWORDS.filter fun sk => isSubstrOf sk.data tl
  let words := ((findTokens tl).map fun w => String.mk w).filter
    fun w => !(STOP_WORDS.contains w) && decide (w.length > 2)
  (skills ++ words).toFinset

/-- MatchResult from src/job_finder/matching.py; level is one of
"Strong", "Good", "Low", "N/A" (the spec writes NotApplicable for "N/A"). -/
structure MatchResult where
  score : Nat
  level : String
  matched_keywords : List String
deriving DecidableEq, Repr

/-- Round the non-negative rational num/den to the nearest integer, ties to
even: the significand-level rounding primitive of IEEE-754 binary64
arithmetic. -/
def rhe (num den : Nat) : Nat :=
  if 2 * (num % den) < den then num / den
  else if den < 2 * (num % den) then num / den + 1
  else if (num / den) % 2 = 0 then num / den else num / den + 1

theorem rhe_lb (den n : Nat) : n / den ≤ rhe n den := by
  unfold rhe
  generalize n / den = q
  generalize n % den = r
  split_ifs <;> omega

theorem rhe_ub (den n : Nat) : rhe n den ≤ n / den + 1 := by
  unfold rhe
  generalize n / den = q
  generalize n % den = r
  split_ifs <;> omega

theorem rhe_mono (den n1 n2 : Nat) (h : n1 ≤ n2) :
    rhe n1 den ≤ rhe n2 den := by
  have hq : n1 / den ≤ n2 / den := Nat.div_le_div_right h
  rcases Nat.lt_or_ge (n1 / den) (n2 / den) with hlt | hge
  · calc rhe n1 den ≤ n1 / den + 1 := rhe_ub den n1
      _ ≤ n2 / den := hlt
      _ ≤ rhe n2 den := rhe_lb den n2
  · have heq : n1 / den = n2 / den := Nat.le_antisymm hq hge
    have hr : n1 % den ≤ n2 % den := by
      have e1 := Nat.div_add_mod n1 den
      have e2 := Nat.div_add_mod n2 den
      have hle : den * (n1 / den) + n1 % den ≤ den * (n2 / den) + n2 % den := by
        rw [e1, e2]; exact h
      rw [heq] at hle
      omega
    unfold rhe
    rw [heq]
    generalize n2 / den = q at *
    generalize n1 % den = r1 at *
    generalize n2 % den = r2 at *
    split_ifs <;> omega

/-- Least n at or above start satisfying p, searched with explicit fuel so
that it reduces in the kernel. -/
def leastGeF (p : Nat → Bool) : Nat → Nat → Nat
  | 0, start => start
  | f + 1, start => if p start then start else leastGeF p f (start + 1)

/-- The scaling exponent of the binary64 quotient m/d (for 1 ≤ m): the least
σ with m·2^σ/d in [2^52, 2^53), so that rounding m·2^σ/d to an integer is
exactly rounding m/d to 53 significant bits. -/
def sigA (m d : Nat) : Nat :=
  leastGeF (fun s => decide (d * 2 ^ 52 ≤ m * 2 ^ s)) (53 + d) 0

/-- The binary64 significand of m/d: the double is sA·2^(-sigA). -/
def sA (m d : Nat) : Nat := rhe (m * 2 ^ sigA m d) d

/-- The normalization shift of the binary64 product sA·100: the least k with
sA·100/2^k below 2^53. -/
def kB (X : Nat) : Nat := leastGeF (fun k => decide (X < 2 ^ (53 + k))) 8 0

/-- The binary64 significand of the product fl(m/d)·100: the double is
sBf·2^(kB - sigA). -/
def sBf (m d : Nat) : Nat := rhe (sA m d * 100) (2 ^ kB (sA m d * 100))

/-- CPython round(m/d*100) for ints m, d, computed exactly: int/int true
division is the correctly rounded binary64 quotient (sA·2^(-σ)), the
multiplication by 100 is correctly rounded again (sBf·2^(k-σ)), and round()
rounds that double half-to-even to an integer.  Every stage is exact integer
arithmetic, so this is the very value the program computes (for the
0 < m ≤ d range score_job uses; m = 0 gives 0.0 exactly). -/
def pyRoundFloat (m d : Nat) : Nat :=
  if m = 0 then 0
  else rhe (sBf m d) (2 ^ (sigA m d - kB (sA m d * 100)))

theorem leastGeF_spec (p : Nat → Bool) :
    ∀ (f start : Nat), p (start + f) = true →
      p (leastGeF p (f + 1) start) = true ∧
      leastGeF p (f + 1) start ≤ start + f ∧
      ∀ j, start ≤ j → j < leastGeF p (f + 1) start → p j = false := by
  intro f
  induction f with
  | zero =>
    intro start hp
    rw [Nat.add_zero] at hp
    have hre : leastGeF p (0 + 1) start = start := by
      show (if p start then start else leastGeF p 0 (start + 1)) = start
      rw [if_pos hp]
    rw [hre]
    exact ⟨hp, by omega, fun j hj1 hj2 => absurd hj2 (by omega)⟩
  | succ f ih =>
    intro start hp
    by_cases hs : p start = true
    · have hre : leastGeF p (f + 1 + 1) start = start := by
        show (if p start then start else leastGeF p (f + 1) (start + 1)) = start
        rw [if_pos hs]
      rw [hre]
      exact ⟨hs, by omega, fun j hj1 hj2 => absurd hj2 (by omega)⟩
    · have hs2 : p start = false := by
        cases h : p start
        · rfl
        · exact absurd h hs
      have hre : leastGeF p (f + 1 + 1) start = leastGeF p (f + 1) (start + 1) := by
        show (if p start then start else leastGeF p (f + 1) (start + 1)) = _
        rw [if_neg hs]
      rw [hre]
      have hp2 : p (start + 1 + f) = true := by
        rw [show start + 1 + f = start + (f + 1) from by omega]
        exact hp
      obtain ⟨h1, h2, h3⟩ := ih (start + 1) hp2
      refine ⟨h1, by omega, ?_⟩
      intro j hj1 hj2
      rcases Nat.eq_or_lt_of_le hj1 with rfl | hlt
      · exact hs2
      · exact h3 j (by omega) hj2

theorem rhe_eq_low (num den : Nat) (h : 2 * (num % den) < den) : rhe num den = num / den := by
  unfold rhe
  rw [if_pos h]

theorem rhe_eq_high (num den : Nat) (h : den < 2 * (num % den)) :
    rhe num den = num / den + 1 := by
  unfold rhe
  rw [if_neg (Nat.lt_asymm h), if_pos h]

theorem rhe_eq_tie (num den : Nat) (h : 2 * (num % den) = den) :
    rhe num den = (if (num / den) % 2 = 0 then num / den else num / den + 1) := by
  unfold rhe
  rw [if_neg (by rw [h]; exact Nat.lt_irrefl den), if_neg (by rw [h]; exact Nat.lt_irrefl den)]

/-- Round half to even is monotone as a function of the rational value, even
across different denominators: the key fact that makes every stage of the
binary64 pipeline monotone. -/
theorem rhe_cross_mono (num1 den1 num2 den2 : Nat) (h1 : 0 < den1) (h2 : 0 < den2)
    (hab : num1 * den2 ≤ num2 * den1) : rhe num1 den1 ≤ rhe num2 den2 := by
  have e1 := Nat.div_add_mod num1 den1
  have e2 := Nat.div_add_mod num2 den2
  have hq : num1 / den1 ≤ num2 / den2 := by
    have step1 : num1 / den1 * den1 ≤ num1 := Nat.div_mul_le_self num1 den1
    have step2 : num1 / den1 * den2 * den1 ≤ num2 * den1 := by
      calc num1 / den1 * den2 * den1 = num1 / den1 * den1 * den2 := by ring
        _ ≤ num1 * den2 := Nat.mul_le_mul_right den2 step1
        _ ≤ num2 * den1 := hab
    exact (Nat.le_div_iff_mul_le h2).mpr (Nat.le_of_mul_le_mul_right step2 h1)
  rcases Nat.lt_or_ge (num1 / den1) (num2 / den2) with hlt | hge
  · calc rhe num1 den1 ≤ num1 / den1 + 1 := rhe_ub den1 num1
      _ ≤ num2 / den2 := hlt
      _ ≤ rhe num2 den2 := rhe_lb den2 num2
  · have heq : num1 / den1 = num2 / den2 := Nat.le_antisymm hq hge
    have hr : num1 % den1 * den2 ≤ num2 % den2 * den1 := by
      have h1e : num1 * den2 = den1 * den2 * (num1 / den1) + num1 % den1 * den2 := by
        conv_lhs => rw [← e1]
        ring
      have h2e : num2 * den1 = den1 * den2 * (num2 / den2) + num2 % den2 * den1 := by
        conv_lhs => rw [← e2]
        ring
      rw [h1e, h2e, heq] at hab
      exact Nat.le_of_add_le_add_left hab
    have hlb2 := rhe_lb den2 num2
    rcases Nat.lt_trichotomy (2 * (num1 % den1)) den1 with hc1 | hc1 | hc1
    · rw [rhe_eq_low num1 den1 hc1, heq]
      exact hlb2
    · by_cases hpar : (num1 / den1) % 2 = 0
      · rw [rhe_eq_tie num1 den1 hc1, if_pos hpar, heq]
        exact hlb2
      · have hge2 : den2 ≤ 2 * (num2 % den2) := by
          have hh : den1 * den2 ≤ den1 * (2 * (num2 % den2)) := by
            calc den1 * den2 = 2 * (num1 % den1) * den2 := by rw [hc1]
              _ = 2 * (num1 % den1 * den2) := by ring
              _ ≤ 2 * (num2 % den2 * den1) := Nat.mul_le_mul_left 2 hr
              _ = den1 * (2 * (num2 % den2)) := by ring
          exact Nat.le_of_mul_le_mul_left hh h1
        rcases Nat.lt_or_ge den2 (2 * (num2 % den2)) with hgt2 | hge2b
        · rw [rhe_eq_tie num1 den1 hc1, if_neg hpar, rhe_eq_high num2 den2 hgt2, heq]
        · have htie2 : 2 * (num2 % den2) = den2 := Nat.le_antisymm hge2b hge2
          have hpar2 : ¬(num2 / den2) % 2 = 0 := by
            rw [← heq]
            exact hpar
          rw [rhe_eq_tie num1 den1 hc1, if_neg hpar,
            rhe_eq_tie num2 den2 htie2, if_neg hpar2, heq]
    · have hgt2 : den2 < 2 * (num2 % den2) := by
        have hh : den1 * den2 < den1 * (2 * (num2 % den2)) := by
          calc den1 * den2 < 2 * (num1 % den1) * den2 :=
              mul_lt_mul_of_pos_right hc1 h2
            _ = 2 * (num1 % den1 * den2) := by ring
            _ ≤ 2 * (num2 % den2 * den1) := Nat.mul_le_mul_left 2 hr
            _ = den1 * (2 * (num2 % den2)) := by ring
        exact Nat.lt_of_mul_lt_mul_left hh
      rw [rhe_eq_high num1 den1 hc1, rhe_eq_high num2 den2 hgt2, heq]

theorem sigA_spec (m d : Nat) (hm : 1 ≤ m) :
    d * 2 ^ 52 ≤ m * 2 ^ sigA m d ∧
    ∀ j, j < sigA m d → m * 2 ^ j < d * 2 ^ 52 := by
  have hwit : (fun s => decide (d * 2 ^ 52 ≤ m * 2 ^ s)) (0 + (52 + d)) = true := by
    simp only [Nat.zero_add, decide_eq_true_eq]
    calc d * 2 ^ 52 ≤ 2 ^ d * 2 ^ 52 :=
        Nat.mul_le_mul_right _ (Nat.le_of_lt (Nat.lt_two_pow d))
      _ = 2 ^ (52 + d) := by rw [← pow_add, Nat.add_comm]
      _ ≤ m * 2 ^ (52 + d) := Nat.le_mul_of_pos_left _ hm
  have hspec := leastGeF_spec (fun s => decide (d * 2 ^ 52 ≤ m * 2 ^ s)) (52 + d) 0 hwit
  unfold sigA
  rw [show 53 + d = 52 + d + 1 from by omega]
  constructor
  · have h1 := hspec.1
    simpa [decide_eq_true_eq] using h1
  · intro j hj
    have h3 := hspec.2.2 j (Nat.zero_le j) hj
    have hnot : ¬ d * 2 ^ 52 ≤ m * 2 ^ j := by
      simpa [decide_eq_false_iff_not] using h3
    exact Nat.lt_of_not_le hnot

theorem sigA_ge_52 (m d : Nat) (hm : 1 ≤ m) (hmd : m ≤ d) : 52 ≤ sigA m d := by
  by_contra hcon
  push_neg at hcon
  have hd0 : 0 < d := lt_of_lt_of_le (Nat.lt_of_lt_of_le Nat.zero_lt_one hm) hmd
  have h1 := (sigA_spec m d hm).1
  have hpow : (2 : ℕ) ^ sigA m d < 2 ^ 52 := Nat.pow_lt_pow_right (by norm_num) hcon
  have : m * 2 ^ sigA m d < d * 2 ^ 52 := by
    calc m * 2 ^ sigA m d ≤ d * 2 ^ sigA m d := Nat.mul_le_mul_right _ hmd
      _ < d * 2 ^ 52 := mul_lt_mul_of_pos_left hpow hd0
  exact Nat.lt_irrefl _ (Nat.lt_of_le_of_lt h1 this)

theorem bracketA_upper (m d : Nat) (hm : 1 ≤ m) (hmd : m ≤ d) :
    m * 2 ^ sigA m d < d * 2 ^ 53 := by
  have h52 := sigA_ge_52 m d hm hmd
  obtain ⟨σ, hσ⟩ : ∃ σ, sigA m d = σ + 1 := ⟨sigA m d - 1, by omega⟩
  have hmin := (sigA_spec m d hm).2 σ (by omega)
  calc m * 2 ^ sigA m d = 2 * (m * 2 ^ σ) := by
        rw [hσ, pow_succ]
        ring
    _ < 2 * (d * 2 ^ 52) := mul_lt_mul_of_pos_left hmin (by norm_num)
    _ = d * 2 ^ 53 := by
        rw [show (2 : ℕ) ^ 53 = 2 ^ 52 * 2 from by norm_num]
        ring

theorem sA_range (m d : Nat) (hm : 1 ≤ m) (hmd : m ≤ d) (hd : 1 ≤ d) :
    2 ^ 52 ≤ sA m d ∧ sA m d ≤ 2 ^ 53 := by
  have hlow := (sigA_spec m d hm).1
  have hup := bracketA_upper m d hm hmd
  constructor
  · have hstep : (2 : ℕ) ^ 52 * d ≤ m * 2 ^ sigA m d := by
      calc (2 : ℕ) ^ 52 * d = d * 2 ^ 52 := by ring
        _ ≤ m * 2 ^ sigA m d := hlow
    have hdiv : (2 : ℕ) ^ 52 ≤ m * 2 ^ sigA m d / d := (Nat.le_div_iff_mul_le hd).mpr hstep
    exact le_trans hdiv (rhe_lb d _)
  · have hq : m * 2 ^ sigA m d / d < 2 ^ 53 := by
      rw [Nat.div_lt_iff_lt_mul hd]
      calc m * 2 ^ sigA m d < d * 2 ^ 53 := hup
        _ = 2 ^ 53 * d := by ring
    exact le_trans (rhe_ub d _) (Nat.succ_le_of_lt hq)

theorem sigA_antitone (d m1 m2 : Nat) (h1 : 1 ≤ m1) (h12 : m1 ≤ m2) :
    sigA m2 d ≤ sigA m1 d := by
  by_contra hcon
  push_neg at hcon
  have hmin := (sigA_spec m2 d (le_trans h1 h12)).2 (sigA m1 d) hcon
  have hlow := (sigA_spec m1 d h1).1
  have : d * 2 ^ 52 ≤ m2 * 2 ^ sigA m1 d :=
    le_trans hlow (Nat.mul_le_mul_right _ h12)
  exact Nat.lt_irrefl _ (Nat.lt_of_le_of_lt this hmin)

theorem kB_spec (X : Nat) (hX : X < 2 ^ 60) :
    X < 2 ^ (53 + kB X) ∧ kB X ≤ 7 ∧ ∀ j, j < kB X → 2 ^ (53 + j) ≤ X := by
  have hwit : (fun k => decide (X < 2 ^ (53 + k))) (0 + 7) = true := by
    simpa [decide_eq_true_eq] using hX
  have hspec := leastGeF_spec (fun k => decide (X < 2 ^ (53 + k))) 7 0 hwit
  unfold kB
  rw [show (8 : Nat) = 7 + 1 from by norm_num]
  refine ⟨?_, by simpa using hspec.2.1, ?_⟩
  · have h1 := hspec.1
    simpa [decide_eq_true_eq] using h1
  · intro j hj
    have h3 := hspec.2.2 j (Nat.zero_le j) hj
    have hnot : ¬ X < 2 ^ (53 + j) := by
      simpa [decide_eq_false_iff_not] using h3
    exact Nat.le_of_not_lt hnot

theorem bracketB_lower (X : Nat) (h52 : 2 ^ 52 ≤ X) (hX : X < 2 ^ 60) :
    2 ^ (52 + kB X) ≤ X := by
  rcases Nat.eq_zero_or_pos (kB X) with h0 | hpos
  · rw [h0]
    simpa using h52
  · obtain ⟨j, hj⟩ : ∃ j, kB X = j + 1 := ⟨kB X - 1, by omega⟩
    have hmin := (kB_spec X hX).2.2 j (by omega)
    rw [hj]
    calc (2 : ℕ) ^ (52 + (j + 1)) = 2 ^ (53 + j) := by ring_nf
      _ ≤ X := hmin

theorem rhe_pow_range (X k : Nat) (hlow : 2 ^ (52 + k) ≤ X) (hup : X < 2 ^ (53 + k)) :
    2 ^ 52 ≤ rhe X (2 ^ k) ∧ rhe X (2 ^ k) ≤ 2 ^ 53 := by
  have hkpos : 0 < (2 : ℕ) ^ k := pow_pos (by norm_num) k
  constructor
  · have hstep : (2 : ℕ) ^ 52 * 2 ^ k ≤ X := by
      calc (2 : ℕ) ^ 52 * 2 ^ k = 2 ^ (52 + k) := by rw [← pow_add]
        _ ≤ X := hlow
    have hdiv : (2 : ℕ) ^ 52 ≤ X / 2 ^ k := (Nat.le_div_iff_mul_le hkpos).mpr hstep
    exact le_trans hdiv (rhe_lb _ _)
  · have hq : X / 2 ^ k < 2 ^ 53 := by
      rw [Nat.div_lt_iff_lt_mul hkpos]
      calc X < 2 ^ (53 + k) := hup
        _ = 2 ^ 53 * 2 ^ k := by rw [← pow_add]
    exact le_trans (rhe_ub _ _) (Nat.succ_le_of_lt hq)

theorem X_bounds (m d : Nat) (hm : 1 ≤ m) (hmd : m ≤ d) (hd : 1 ≤ d) :
    2 ^ 52 ≤ sA m d * 100 ∧ sA m d * 100 < 2 ^ 60 := by
  obtain ⟨hl, hu⟩ := sA_range m d hm hmd hd
  constructor
  · calc (2 : ℕ) ^ 52 ≤ sA m d := hl
      _ ≤ sA m d * 100 := Nat.le_mul_of_pos_right _ (by norm_num)
  · calc sA m d * 100 ≤ 2 ^ 53 * 100 := Nat.mul_le_mul_right _ hu
      _ < 2 ^ 60 := by norm_num

theorem sBf_range (m d : Nat) (hm : 1 ≤ m) (hmd : m ≤ d) (hd : 1 ≤ d) :
    2 ^ 52 ≤ sBf m d ∧ sBf m d ≤ 2 ^ 53 := by
  obtain ⟨hx1, hx2⟩ := X_bounds m d hm hmd hd
  exact rhe_pow_range _ _ (bracketB_lower _ hx1 hx2) ((kB_spec _ hx2).1)

theorem stageA_mono (d m1 m2 : Nat) (hd : 1 ≤ d) (h1 : 1 ≤ m1) (h12 : m1 ≤ m2)
    (h2d : m2 ≤ d) :
    sA m1 d * 2 ^ sigA m2 d ≤ sA m2 d * 2 ^ sigA m1 d := by
  have h2 : 1 ≤ m2 := le_trans h1 h12
  have h1d : m1 ≤ d := le_trans h12 h2d
  have hanti : sigA m2 d ≤ sigA m1 d := sigA_antitone d m1 m2 h1 h12
  rcases Nat.eq_or_lt_of_le hanti with heq | hlt
  · rw [heq]
    apply Nat.mul_le_mul_right
    unfold sA
    rw [heq]
    apply rhe_cross_mono _ _ _ _ hd hd
    exact Nat.mul_le_mul_right d (Nat.mul_le_mul_right _ h12)
  · calc sA m1 d * 2 ^ sigA m2 d ≤ 2 ^ 53 * 2 ^ sigA m2 d :=
        Nat.mul_le_mul_right _ (sA_range m1 d h1 h1d hd).2
      _ = 2 ^ 52 * 2 ^ (sigA m2 d + 1) := by
          rw [pow_succ, pow_succ]
          ring
      _ ≤ 2 ^ 52 * 2 ^ sigA m1 d :=
        Nat.mul_le_mul_left _ (Nat.pow_le_pow_right (by norm_num) hlt)
      _ ≤ sA m2 d * 2 ^ sigA m1 d :=
        Nat.mul_le_mul_right _ (sA_range m2 d h2 h2d hd).1

/-- Monotonicity of the full binary64 score pipeline in the matched-keyword
count: correct rounding at each stage is monotone. -/
theorem pyRoundFloat_mono (d m1 m2 : Nat) (hd : 1 ≤ d) (h12 : m1 ≤ m2) (h2d : m2 ≤ d) :
    pyRoundFloat m1 d ≤ pyRoundFloat m2 d := by
  rcases Nat.eq_zero_or_pos m1 with rfl | h1
  · simp [pyRoundFloat]
  rcases Nat.eq_zero_or_pos m2 with rfl | h2
  · omega
  have h1d : m1 ≤ d := le_trans h12 h2d
  obtain ⟨hX1l, hX1u⟩ := X_bounds m1 d h1 h1d hd
  obtain ⟨hX2l, hX2u⟩ := X_bounds m2 d h2 h2d hd
  have hbB1 := bracketB_lower _ hX1l hX1u
  have hbB1u := (kB_spec _ hX1u).1
  have hbB2u := (kB_spec _ hX2u).1
  have hk1_7 := (kB_spec _ hX1u).2.1
  have hk2_7 := (kB_spec _ hX2u).2.1
  have hσ1_52 := sigA_ge_52 m1 d h1 h1d
  have hσ2_52 := sigA_ge_52 m2 d h2 h2d
  obtain ⟨hsB1l, hsB1u⟩ := sBf_range m1 d h1 h1d hd
  obtain ⟨hsB2l, hsB2u⟩ := sBf_range m2 d h2 h2d hd
  have hA := stageA_mono d m1 m2 hd h1 h12 h2d
  have hAX : sA m1 d * 100 * 2 ^ sigA m2 d ≤ sA m2 d * 100 * 2 ^ sigA m1 d := by
    calc sA m1 d * 100 * 2 ^ sigA m2 d = sA m1 d * 2 ^ sigA m2 d * 100 := by ring
      _ ≤ sA m2 d * 2 ^ sigA m1 d * 100 := Nat.mul_le_mul_right _ hA
      _ = sA m2 d * 100 * 2 ^ sigA m1 d := by ring
  have hT : kB (sA m1 d * 100) + sigA m2 d ≤ kB (sA m2 d * 100) + sigA m1 d := by
    by_contra hcon
    push_neg at hcon
    have hlow : 2 ^ (52 + (kB (sA m1 d * 100) + sigA m2 d)) ≤
        sA m1 d * 100 * 2 ^ sigA m2 d := by
      calc (2 : ℕ) ^ (52 + (kB (sA m1 d * 100) + sigA m2 d)) =
            2 ^ (52 + kB (sA m1 d * 100)) * 2 ^ sigA m2 d := by
            rw [← pow_add]
            ring_nf
        _ ≤ sA m1 d * 100 * 2 ^ sigA m2 d := Nat.mul_le_mul_right _ hbB1
    have hup : sA m2 d * 100 * 2 ^ sigA m1 d <
        2 ^ (53 + (kB (sA m2 d * 100) + sigA m1 d)) := by
      calc sA m2 d * 100 * 2 ^ sigA m1 d <
            2 ^ (53 + kB (sA m2 d * 100)) * 2 ^ sigA m1 d :=
            mul_lt_mul_of_pos_right hbB2u (pow_pos (by norm_num) _)
        _ = 2 ^ (53 + (kB (sA m2 d * 100) + sigA m1 d)) := by
            rw [← pow_add]
            ring_nf
    have hpow : (2 : ℕ) ^ (52 + (kB (sA m1 d * 100) + sigA m2 d)) <
        2 ^ (53 + (kB (sA m2 d * 100) + sigA m1 d)) :=
      lt_of_le_of_lt (le_trans hlow hAX) hup
    have hexp : 52 + (kB (sA m1 d * 100) + sigA m2 d) <
        53 + (kB (sA m2 d * 100) + sigA m1 d) := by
      by_contra hc2
      push_neg at hc2
      exact Nat.lt_irrefl _
        (Nat.lt_of_le_of_lt (Nat.pow_le_pow_right (by norm_num) hc2) hpow)
    omega
  have hB : sBf m1 d * 2 ^ (kB (sA m1 d * 100) + sigA m2 d) ≤
      sBf m2 d * 2 ^ (kB (sA m2 d * 100) + sigA m1 d) := by
    rcases Nat.eq_or_lt_of_le hT with hTeq | hTlt
    · have hXc : sA m1 d * 100 * 2 ^ kB (sA m2 d * 100) ≤
          sA m2 d * 100 * 2 ^ kB (sA m1 d * 100) := by
        have hstep : sA m1 d * 100 * 2 ^ kB (sA m2 d * 100) * 2 ^ sigA m1 d ≤
            sA m2 d * 100 * 2 ^ kB (sA m1 d * 100) * 2 ^ sigA m1 d := by
          calc sA m1 d * 100 * 2 ^ kB (sA m2 d * 100) * 2 ^ sigA m1 d =
                sA m1 d * 100 * 2 ^ (kB (sA m2 d * 100) + sigA m1 d) := by
                rw [pow_add]
                ring
            _ = sA m1 d * 100 * 2 ^ (kB (sA m1 d * 100) + sigA m2 d) := by rw [hTeq]
            _ = sA m1 d * 100 * 2 ^ sigA m2 d * 2 ^ kB (sA m1 d * 100) := by
                rw [pow_add]
                ring
            _ ≤ sA m2 d * 100 * 2 ^ sigA m1 d * 2 ^ kB (sA m1 d * 100) :=
              Nat.mul_le_mul_right _ hAX
            _ = sA m2 d * 100 * 2 ^ kB (sA m1 d * 100) * 2 ^ sigA m1 d := by ring
        exact Nat.le_of_mul_le_mul_right hstep (pow_pos (by norm_num) _)
      have hsB : sBf m1 d ≤ sBf m2 d := by
        unfold sBf
        exact rhe_cross_mono _ _ _ _ (pow_pos (by norm_num) _) (pow_pos (by norm_num) _) hXc
      calc sBf m1 d * 2 ^ (kB (sA m1 d * 100) + sigA m2 d) ≤
            sBf m2 d * 2 ^ (kB (sA m1 d * 100) + sigA m2 d) :=
            Nat.mul_le_mul_right _ hsB
        _ = sBf m2 d * 2 ^ (kB (sA m2 d * 100) + sigA m1 d) := by rw [hTeq]
    · calc sBf m1 d * 2 ^ (kB (sA m1 d * 100) + sigA m2 d) ≤
            2 ^ 53 * 2 ^ (kB (sA m1 d * 100) + sigA m2 d) :=
            Nat.mul_le_mul_right _ hsB1u
        _ = 2 ^ 52 * 2 ^ (kB (sA m1 d * 100) + sigA m2 d + 1) := by
            rw [pow_succ, pow_succ]
            ring
        _ ≤ 2 ^ 52 * 2 ^ (kB (sA m2 d * 100) + sigA m1 d) :=
          Nat.mul_le_mul_left _ (Nat.pow_le_pow_right (by norm_num) hTlt)
        _ ≤ sBf m2 d * 2 ^ (kB (sA m2 d * 100) + sigA m1 d) :=
          Nat.mul_le_mul_right _ hsB2l
  have hfin : sBf m1 d * 2 ^ (sigA m2 d - kB (sA m2 d * 100)) ≤
      sBf m2 d * 2 ^ (sigA m1 d - kB (sA m1 d * 100)) := by
    have e1 : kB (sA m1 d * 100) + sigA m2 d =
        (sigA m2 d - kB (sA m2 d * 100)) + (kB (sA m1 d * 100) + kB (sA m2 d * 100)) := by
      omega
    have e2 : kB (sA m2 d * 100) + sigA m1 d =
        (sigA m1 d - kB (sA m1 d * 100)) + (kB (sA m1 d * 100) + kB (sA m2 d * 100)) := by
      omega
    have hstep : sBf m1 d * 2 ^ (sigA m2 d - kB (sA m2 d * 100)) *
        2 ^ (kB (sA m1 d * 100) + kB (sA m2 d * 100)) ≤
        sBf m2 d * 2 ^ (sigA m1 d - kB (sA m1 d * 100)) *
        2 ^ (kB (sA m1 d * 100) + kB (sA m2 d * 100)) := by
      calc sBf m1 d * 2 ^ (sigA m2 d - kB (sA m2 d * 100)) *
            2 ^ (kB (sA m1 d * 100) + kB (sA m2 d * 100)) =
            sBf m1 d * 2 ^ (kB (sA m1 d * 100) + sigA m2 d) := by
            rw [e1, pow_add]
            ring
        _ ≤ sBf m2 d * 2 ^ (kB (sA m2 d * 100) + sigA m1 d) := hB
        _ = sBf m2 d * 2 ^ (sigA m1 d - kB (sA m1 d * 100)) *
            2 ^ (kB (sA m1 d * 100) + kB (sA m2 d * 100)) := by
            rw [e2, pow_add]
            ring
    exact Nat.le_of_mul_le_mul_right hstep (pow_pos (by norm_num) _)
  unfold pyRoundFloat
  rw [if_neg (by omega), if_neg (by omega)]
  exact rhe_cross_mono _ _ _ _ (pow_pos (by norm_num) _) (pow_pos (by norm_num) _) hfin

/-- score_job from src/job_finder/matching.py; the score is
round(len(matched)/len(jd_keywords)*100) evaluated in double precision,
modelled exactly by pyRoundFloat, then clamped to 100. -/
def score_job (resume_text job_description : String) : MatchResult :=
  if job_description = "" then ⟨0, "N/A", []⟩
  else
    let resume_keywords := extract_keywords resume_text
    let jd_keywords := extract_keywords job_description
    if resume_keywords = ∅ ∨ jd_keywords = ∅ then ⟨0, "N/A", []⟩
    else
      let matched := resume_keywords ∩ jd_keywords
      let score := min (pyRoundFloat matched.card jd_keywords.card) 100
      let level := if 70 ≤ score then "Strong" else if 40 ≤ score then "Good" else "Low"
      ⟨score, level, matched.sort (· ≤ ·)⟩

/-- C7: For a non-empty description and non-empty extracted keyword sets on
both sides, the score is round(|matched| / |jd_keywords| * 100) — the
double-precision evaluation CPython performs, modelled exactly by
pyRoundFloat — clamped to 100, and the level is Strong at 70 and above,
Good from 40 below 70, and Low below 40. -/
theorem C7_score_formula (resume_text job_description : String)
    (hjd : job_description ≠ "")
    (hr : extract_keywords resume_text ≠ ∅)
    (hj : extract_keywords job_description ≠ ∅) :
    (score_job resume_text job_description).score =
      min (pyRoundFloat (extract_keywords resume_text ∩ extract_keywords job_description).card
        (extract_keywords job_description).card) 100 ∧
    ((score_job resume_text job_description).level = "Strong" ↔
      70 ≤ (score_job resume_text job_description).score) ∧
    ((score_job resume_text job_description).level = "Good" ↔
      (40 ≤ (score_job resume_text job_description).score ∧
        (score_job resume_text job_description).score < 70)) ∧
    ((score_job resume_text job_description).level = "Low" ↔
      (score_job resume_text job_description).score < 40) := by
  have hor : ¬(extract_keywords resume_text = ∅ ∨ extract_keywords job_description = ∅) := by
    rintro (h | h)
    · exact hr h
    · exact hj h
  have hscore : (score_job resume_text job_description).score =
      min (pyRoundFloat (extract_keywords resume_text ∩ extract_keywords job_description).card
        (extract_keywords job_description).card) 100 := by
    simp [score_job, if_neg hjd, if_neg hor]
  have hlevel : (score_job resume_text job_description).level =
      (if 70 ≤ (score_job resume_text job_description).score then "Strong"
       else if 40 ≤ (score_job resume_text job_description).score then "Good" else "Low") := by
    simp [score_job, if_neg hjd, if_neg hor]
  refine ⟨hscore, ?_, ?_, ?_⟩ <;> rw [hlevel] <;> split_ifs with h1 h2 <;>
    simp_all <;> omega

theorem C7_witness :
    ("sql agile" ≠ "" ∧ extract_keywords "sql agile teamwork" ≠ ∅ ∧ extract_keywords "sql agile" ≠ ∅) ∧
    ((score_job "sql agile teamwork" "sql agile").score =
      min (pyRoundFloat (extract_keywords "sql agile teamwork" ∩ extract_keywords "sql agile").card
        (extract_keywords "sql agile").card) 100 ∧
    ((score_job "sql agile teamwork" "sql agile").level = "Strong" ↔
      70 ≤ (score_job "sql agile teamwork" "sql agile").score) ∧
    ((score_job "sql agile teamwork" "sql agile").level = "Good" ↔
      (40 ≤ (score_job "sql agile teamwork" "sql agile").score ∧
        (score_job "sql agile teamwork" "sql agile").score < 70)) ∧
    ((score_job "sql agile teamwork" "sql agile").level = "Low" ↔
      (score_job "sql agile teamwork" "sql agile").score < 40)) :=
  ⟨⟨by decide, by decide, by decide⟩,
    C7_score_formula "sql agile teamwork" "sql agile" (by decide) (by decide) (by decide)⟩

/-- C8: An empty description, or an empty extracted keyword set on either
side, yields score 0, level "N/A" and no matched keywords. -/
theorem C8_not_applicable (resume_text job_description : String)
    (h : job_description = "" ∨ extract_keywords resume_text = ∅ ∨
      extract_keywords job_description = ∅) :
    score_job resume_text job_description = ⟨0, "N/A", []⟩ := by
  unfold score_job
  split
  · rfl
  · rcases h with h | h | h
    · contradiction
    · simp [h]
    · simp [h]

theorem C8_witness :
    (("" : String) = "" ∨ extract_keywords "python sql" = ∅ ∨ extract_keywords "" = ∅) ∧
    score_job "python sql" "" = ⟨0, "N/A", []⟩ :=
  ⟨Or.inl rfl, C8_not_applicable "python sql" "" (Or.inl rfl)⟩

/-! Monotonicity of the scorer (C9). -/

theorem startsWithL_append (pat : List Char) :
    ∀ (s t : List Char), startsWithL pat s = true → startsWithL pat (s ++ t) = true := by
  induction pat with
  | nil => intro s t _; simp [startsWithL]
  | cons p ps ih =>
    intro s t h
    cases s with
    | nil => simp [startsWithL] at h
    | cons c cs =>
      simp only [startsWithL, Bool.and_eq_true] at h
      simp only [List.cons_append, startsWithL, Bool.and_eq_true]
      exact ⟨h.1, ih cs t h.2⟩

theorem isSubstrOf_nil_pat (s : List Char) : isSubstrOf [] s = true := by
  cases s <;> simp [isSubstrOf, startsWithL]

theorem isSubstrOf_append (pat s t : List Char) (h : isSubstrOf pat s = true) :
    isSubstrOf pat (s ++ t) = true := by
  induction s with
  | nil =>
    simp only [isSubstrOf, List.isEmpty_iff] at h
    subst h
    exact isSubstrOf_nil_pat t
  | cons c cs ih =>
    simp only [isSubstrOf, Bool.or_eq_true] at h
    simp only [List.cons_append, isSubstrOf, Bool.or_eq_true]
    rcases h with h | h
    · exact Or.inl (startsWithL_append pat (c :: cs) t h)
    · exact Or.inr (ih h)

theorem tokSplit_append (m : List Char) (a : List Char) :
    (a ++ ' ' :: m).takeWhile isTokChar = a.takeWhile isTokChar ∧
    (a ++ ' ' :: m).dropWhile isTokChar = a.dropWhile isTokChar ++ ' ' :: m := by
  have hsp : isTokChar ' ' = false := by decide
  induction a with
  | nil => constructor <;> simp [List.takeWhile_cons, List.dropWhile_cons, hsp]
  | cons x xs ih =>
    by_cases hx : isTokChar x <;>
      simp [List.takeWhile_cons, List.dropWhile_cons, hx, ih.1, ih.2]

theorem findTokens_space_cons (m : List Char) : findTokens (' ' :: m) = findTokens m := by
  have hsp : isTokStart ' ' = false := by decide
  cases m with
  | nil => rfl
  | cons x m2 => rw [findTokens_cons2]; simp [hsp]

theorem findTokens_append_space (m : List Char) :
    ∀ (n : Nat) (l : List Char), l.length ≤ n →
    findTokens (l ++ ' ' :: m) = findTokens l ++ findTokens m := by
  intro n
  induction n with
  | zero =>
    intro l hl
    have : l = [] := List.eq_nil_of_length_eq_zero (Nat.le_zero.mp hl)
    subst this
    rw [List.nil_append, findTokens_nil, List.nil_append]
    exact findTokens_space_cons m
  | succ n ih =>
    intro l hl
    match l with
    | [] =>
      rw [List.nil_append, findTokens_nil, List.nil_append]
      exact findTokens_space_cons m
    | [c] =>
      show findTokens (c :: ' ' :: m) = findTokens [c] ++ findTokens m
      have hsp : isTokChar ' ' = false := by decide
      rw [findTokens_cons2, findTokens_one, List.nil_append]
      by_cases hc : isTokStart c
      all_goals simp [hc, hsp, findTokens_space_cons]
    | c :: d :: rest =>
      have hlen : (d :: rest).length ≤ n := by
        simp only [List.length_cons] at hl ⊢
        omega
      show findTokens (c :: d :: (rest ++ ' ' :: m)) = findTokens (c :: d :: rest) ++ findTokens m
      rw [findTokens_cons2, findTokens_cons2 c d rest]
      by_cases hc : isTokStart c
      · by_cases hd : isTokChar d
        · have hsplit := tokSplit_append m (d :: rest)
          have hdroplen : ((d :: rest).dropWhile isTokChar).length ≤ n :=
            Nat.le_trans (length_dropWhile_le_char isTokChar (d :: rest)) hlen
          simp only [hc, hd, if_pos]
          rw [show d :: (rest ++ ' ' :: m) = (d :: rest) ++ ' ' :: m from rfl,
            hsplit.1, hsplit.2, ih _ hdroplen]
          simp
        · simp only [hc, hd, if_pos, Bool.false_eq_true, if_neg, not_false_iff]
          exact ih (d :: rest) hlen
      · simp only [hc, Bool.false_eq_true, if_neg, not_false_iff]
        exact ih (d :: rest) hlen

theorem extract_keywords_mono_append (r extra : String) :
    extract_keywords r ⊆ extract_keywords (r ++ " " ++ extra) := by
  intro k hk
  have hdata : (r ++ " " ++ extra).data = r.data ++ ' ' :: extra.data := by
    simp [String.data_append]
  have hlow : (r ++ " " ++ extra).data.map Char.toLower =
      r.data.map Char.toLower ++ ' ' :: extra.data.map Char.toLower := by
    rw [hdata]
    simp
  simp only [extract_keywords, List.mem_toFinset, List.mem_append, List.mem_filter,
    List.mem_map] at hk ⊢
  rw [hlow]
  rcases hk with ⟨hmem, hsub⟩ | ⟨⟨w, hw, rfl⟩, hfilt⟩
  · exact Or.inl ⟨hmem, isSubstrOf_append _ _ _ hsub⟩
  · refine Or.inr ⟨⟨w, ?_, rfl⟩, hfilt⟩
    rw [findTokens_append_space (extra.data.map Char.toLower)
      (r.data.map Char.toLower).length _ (Nat.le_refl _)]
    exact List.mem_append.mpr (Or.inl hw)

/-- C9: For a fixed description, appending further text (in particular text
whose keywords overlap the description's keyword set) to the resume never
decreases the score. -/
theorem C9_monotonic_scoring (resume_text extra job_description : String) :
    (score_job resume_text job_description).score ≤
    (score_job (resume_text ++ " " ++ extra) job_description).score := by
  by_cases hjd : job_description = ""
  · simp [score_job, hjd]
  · by_cases hjk : extract_keywords job_description = ∅
    · simp [score_job, hjd, hjk]
    · by_cases hrk : extract_keywords resume_text = ∅
      · have h0 : (score_job resume_text job_description).score = 0 := by
          simp [score_job, hjd, hrk]
        rw [h0]
        exact Nat.zero_le _
      · have hsub := extract_keywords_mono_append resume_text extra
        have hrk2 : extract_keywords (resume_text ++ " " ++ extra) ≠ ∅ := by
          intro h0
          exact hrk (Finset.subset_empty.mp (h0 ▸ hsub))
        have hor1 : ¬(extract_keywords resume_text = ∅ ∨ extract_keywords job_description = ∅) := by
          rintro (h | h)
          · exact hrk h
          · exact hjk h
        have hor2 : ¬(extract_keywords (resume_text ++ " " ++ extra) = ∅ ∨
            extract_keywords job_description = ∅) := by
          rintro (h | h)
          · exact hrk2 h
          · exact hjk h
        simp only [score_job, if_neg hjd, if_neg hor1, if_neg hor2]
        apply min_le_min _ (Nat.le_refl 100)
        apply pyRoundFloat_mono
        · exact Finset.card_pos.mpr (Finset.nonempty_iff_ne_empty.mpr hjk)
        · exact Finset.card_le_card (Finset.inter_subset_inter hsub (Finset.Subset.refl _))
        · exact Finset.card_le_card Finset.inter_subset_right

end Matching

namespace Loc

/-- CITY_ALIASES from src/job_finder/location_utils.py, in source order
(a Python dict iterates in insertion order). -/
def CITY_ALIASES : List (String × String) := [
  ("sf", "San Francisco"),
  ("san fran", "San Francisco"),
  ("nyc", "New York"),
  ("la", "Los Angeles"),
  ("dc", "Washington DC"),
  ("washington, d.c.", "Washington DC"),
  ("washington d.c.", "Washington DC"),
  ("london, uk", "London, UK"),
  ("london, united kingdom", "London, UK"),
  ("bangalore", "Bengaluru"),
  ("bombay", "Mumbai")]

/-- COUNTRY_ALIASES from src/job_finder/location_utils.py. -/
def COUNTRY_ALIASES : List (String × String) := [
  ("usa", "US"),
  ("united states", "US"),
  ("united states of america", "US"),
  ("united kingdom", "UK"),
  ("great britain", "UK"),
  ("deutschland", "Germany"),
  ("brasil", "Brazil")]

/-- STATE_ABBREV from src/job_finder/location_utils.py. -/
def STATE_ABBREV : List (String × String) := [
  ("california", "CA"),
  ("new york", "NY"),
  ("texas", "TX"),
  ("washington", "WA"),
  ("colorado", "CO"),
  ("oregon", "OR"),
  ("massachusetts", "MA"),
  ("illinois", "IL"),
  ("georgia", "GA"),
  ("florida", "FL"),
  ("pennsylvania", "PA"),
  ("british columbia", "BC"),
  ("ontario", "ON")]

/-- Python regex \s on the ASCII range (all repository location data is ASCII). -/
def pyIsSpace (c : Char) : Bool :=
  c == ' ' || c == '\t' || c == '\n' || c == '\r' || c == '\x0b' || c == '\x0c'

/-- Python regex \b word characters on the ASCII range. -/
def isWordChar (c : Char) : Bool := c.isAlphanum || c == '_'

def isUpperAZ (c : Char) : Bool := 'A' ≤ c && c ≤ 'Z'

/-- Lower-casing on the ASCII range (Python str.lower on this data). -/
def lowerL (s : List Char) : List Char := s.map Char.toLower

/-- Case-insensitive literal-prefix test. -/
def ciStartsWith : List Char → List Char → Bool
  | [], _ => true
  | _ :: _, [] => false
  | p :: ps, c :: cs => p.toLower == c.toLower && ciStartsWith ps cs

/-- Case-insensitive literal-suffix test. -/
def ciEndsWith (suf s : List Char) : Bool :=
  decide (suf.length ≤ s.length) && lowerL (s.drop (s.length - suf.length)) == lowerL suf

/-- Python str.strip(): drop leading and trailing whitespace. -/
def stripWs (s : List Char) : List Char :=
  ((s.dropWhile pyIsSpace).reverse.dropWhile pyIsSpace).reverse

/-- Fuel-driven worker for subSpacedLit: re.sub of the pattern
\s*LIT\s* (IGNORECASE) by a single space, where LIT is a literal that starts
with a non-space character, so the greedy \s* must stop exactly at the first
character of LIT.  Fuel equal to the string length never runs out because a
match consumes at least one character. -/
def subSpacedLitF (lit : List Char) : Nat → List Char → List Char
  | 0, s => s
  | _ + 1, [] => []
  | f + 1, c :: rest =>
    let afterSpaces := (c :: rest).dropWhile pyIsSpace
    if ciStartsWith lit afterSpaces then
      ' ' :: subSpacedLitF lit f ((afterSpaces.drop lit.length).dropWhile pyIsSpace)
    else
      c :: subSpacedLitF lit f rest

def subSpacedLit (lit s : List Char) : List Char := subSpacedLitF lit s.length s

/-- re.sub of \s+locations?\s*$ (IGNORECASE) by the empty string: drop a
trailing "location"/"locations" word, the whitespace run before it (at least
one character wide) and any whitespace after it. -/
def stripLocationsSuffix (s : List Char) : List Char :=
  let u := (s.reverse.dropWhile pyIsSpace).reverse
  let core :=
    if ciEndsWith ("locations".data) u then some (u.take (u.length - 9))
    else if ciEndsWith ("location".data) u then some (u.take (u.length - 8))
    else none
  match core with
  | none => s
  | some u2 =>
    let trimmed := (u2.reverse.dropWhile pyIsSpace).reverse
    if trimmed.length < u2.length then trimmed else s

/-- re.match of ^[A-Z]{2}-Remote-(.+)$ (case-sensitive): on success the
captured group, the rest of the line after the prefix.  The dot does not
match a newline and $ also matches just before a final newline. -/
def matchXXRemote (s : List Char) : Option (List Char) :=
  match s with
  | a :: b :: rest =>
    if isUpperAZ a && isUpperAZ b && Matching.startsWithL ("-Remote-".data) rest then
      let tail := rest.drop 8
      let body := if tail.getLast? == some '\n' then tail.dropLast else tail
      if body ≠ [] ∧ ¬ '\n' ∈ body then some body else none
    else none
  | _ => none

/-- re.sub of ^[A-Z]{2}- by the empty string: strip one leading two-letter
country-code prefix. -/
def stripCountryCode : List Char → List Char
  | a :: b :: '-' :: rest =>
    if isUpperAZ a && isUpperAZ b then rest else a :: b :: '-' :: rest
  | s => s

/-- One attempt to match Remote-([A-Z]{2})\s*\(National\) (case-sensitive)
at the head of s; on success the replacement (the two letters) and the rest. -/
def tryRemNat (s : List Char) : Option (List Char × List Char) :=
  if Matching.startsWithL ("Remote-".data) s then
    match s.drop 7 with
    | a :: b :: rest2 =>
      if isUpperAZ a && isUpperAZ b then
        let afterWs := rest2.dropWhile pyIsSpace
        if Matching.startsWithL ("(National)".data) afterWs then
          some ([a, b], afterWs.drop 10)
        else none
      else none
    | _ => none
  else none

/-- Fuel-driven worker for the global re.sub of
Remote-([A-Z]{2})\s*\(National\) by the captured group. -/
def subRemoteNationalF : Nat → List Char → List Char
  | 0, s => s
  | _ + 1, [] => []
  | f + 1, c :: rest =>
    match tryRemNat (c :: rest) with
    | some (st, remainder) => st ++ subRemoteNationalF f remainder
    | none => c :: subRemoteNationalF f rest

def subRemoteNational (s : List Char) : List Char := subRemoteNationalF s.length s

/-- Fuel-driven worker for Python str.split(): split on whitespace runs,
dropping empty pieces. -/
def splitWsF : Nat → List Char → List (List Char)
  | 0, _ => []
  | _ + 1, [] => []
  | f + 1, c :: rest =>
    if pyIsSpace c then splitWsF f rest
    else (c :: rest.takeWhile (fun x => !pyIsSpace x)) ::
      splitWsF f (rest.dropWhile (fun x => !pyIsSpace x))

def splitWs (s : List Char) : List (List Char) := splitWsF s.length s

/-- Word-boundary test of Python regex \b between two adjacent positions:
a boundary exists when exactly one side is a word character (a missing side
counts as non-word). -/
def wordAt : Option Char → Bool
  | some c => isWordChar c
  | none => false

/-- Fuel-driven worker for the global, case-insensitive, word-bounded
re.sub of the literal pat by rep: re.sub(r'\b' + re.escape(pat) + r'\b',
rep, s, flags=IGNORECASE).  prev is the original character just before the
current position (matching continues over the original text after each
replacement). -/
def subWordCIF (pat rep : List Char) : Option Char → Nat → List Char → List Char
  | _, 0, s => s
  | _, _ + 1, [] => []
  | prev, f + 1, c :: rest =>
    let s := c :: rest
    if ciStartsWith pat s
        && (wordAt prev != wordAt (some c))
        && (wordAt ((s.take pat.length).getLast?) != wordAt ((s.drop pat.length).head?)) then
      rep ++ subWordCIF pat rep ((s.take pat.length).getLast?) f (s.drop pat.length)
    else
      c :: subWordCIF pat rep (some c) f rest

def subWordCI (pat rep s : List Char) : List Char :=
  if pat = [] then s else subWordCIF pat rep none s.length s

/-- The alias loops of _normalize_city and _normalize_region: apply each
word-bounded case-insensitive substitution in dict order to the running
string. -/
def applyAliases (aliases : List (String × String)) (s : List Char) : List Char :=
  aliases.foldl (fun loc p => subWordCI p.1.data p.2.data loc) s

/-- _normalize_city from src/job_finder/location_utils.py. -/
def normalize_city (s : List Char) : List Char := applyAliases CITY_ALIASES s

/-- _normalize_region from src/job_finder/location_utils.py (it applies only
COUNTRY_ALIASES; STATE_ABBREV is used solely by _parse_dict_location). -/
def normalize_region (s : List Char) : List Char := applyAliases COUNTRY_ALIASES s

/-- _is_remote from src/job_finder/location_utils.py. -/
def is_remote (s : List Char) : Bool :=
  let l := lowerL s
  Matching.isSubstrOf ("remote".data) l || Matching.isSubstrOf ("work from home".data) l ||
    Matching.isSubstrOf ("wfh".data) l || Matching.isSubstrOf ("distributed".data) l

def skipWsP (s : List Char) : List Char := s.dropWhile pyIsSpace

/-- A single- or double-quoted string literal without escapes; returns the
content and the rest. -/
def parseStrLit : List Char → Option (String × List Char)
  | q :: rest =>
    if q == '\'' || q == '"' then
      let content := rest.takeWhile (fun c => c != q && c != '\\')
      match rest.drop content.length with
      | e :: rest2 => if e == q then some (String.mk content, rest2) else none
      | [] => none
    else none
  | [] => none

/-- Entries of a flat dict literal after the opening brace. -/
def parseEntries : Nat → List Char → List (String × String) → Option (List (String × String))
  | 0, _, _ => none
  | f + 1, s, acc =>
    match skipWsP s with
    | '\x7d' :: rest => if skipWsP rest = [] then some acc else none
    | s2 =>
      match parseStrLit s2 with
      | none => none
      | some (k, rest) =>
        match skipWsP rest with
        | ':' :: rest2 =>
          match parseStrLit (skipWsP rest2) with
          | none => none
          | some (v, rest3) =>
            match skipWsP rest3 with
            | ',' :: rest4 => parseEntries f rest4 (acc ++ [(k, v)])
            | '\x7d' :: rest4 => if skipWsP rest4 = [] then some (acc ++ [(k, v)]) else none
            | _ => none
        | _ => none

/-- Modelled from the code: ast.literal_eval restricted to flat dict
literals with quoted string keys and values and no escape sequences — the
only shape serialized location payloads take.  Any other input counts as the
ValueError/SyntaxError (or non-dict) branch and yields none. -/
def parseFlatDict : List Char → Option (List (String × String))
  | '\x7b' :: rest => parseEntries (rest.length + 1) rest []
  | _ => none

/-- Python dict lookup with duplicate keys resolved to the last occurrence. -/
def lookupD (d : List (String × String)) (k : String) : Option String :=
  (d.reverse.find? (fun p => p.1 == k)).map Prod.snd

/-- _parse_dict_location from src/job_finder/location_utils.py. -/
def parse_dict_location (s : List Char) : List Char :=
  match parseFlatDict s with
  | none => s
  | some d =>
    let city := (lookupD d "city").getD ""
    let region := (lookupD d "region").getD ""
    let country := (lookupD d "countryName").getD ((lookupD d "country").getD "")
    let parts1 : List String := if city ≠ "" then [city] else []
    let parts2 :=
      if region ≠ "" ∧ region ≠ city then
        let region2 := (lookupD STATE_ABBREV (String.mk (lowerL region.data))).getD region
        parts1 ++ [region2]
      else parts1
    let parts3 :=
      if country ≠ "" ∧ country ≠ "United States" ∧ country ≠ "USA" ∧ parts2.length < 2 then
        parts2 ++ [country]
      else parts2
    if parts3 = [] then "Unknown".data else (String.intercalate ", " parts3).data

/-- _clean_location from src/job_finder/location_utils.py, step by step in
source order. -/
def clean_location (s : List Char) : List Char :=
  let s1 := subSpacedLit ("(remote)".data) s
  let s2 := stripLocationsSuffix s1
  let s3 := match matchXXRemote s2 with
    | some body => body
    | none => s2
  let s4 := stripCountryCode s3
  let s5 := subRemoteNational s4
  let s6 := subSpacedLit ("(national)".data) s5
  let s7 :=
    if Matching.isSubstrOf (", US-".data) s6 || Matching.isSubstrOf (", IE-".data) s6 then
      stripWs (s6.takeWhile (fun c => c != ','))
    else s6
  let s8 := subSpacedLit ("(hq)".data) s7
  let s9 := List.intercalate [' '] (splitWs s8)
  stripWs s9

/-- normalize_location from src/job_finder/location_utils.py. -/
def normalize_location (raw_location : String) : String :=
  if raw_location = "" ∨ raw_location = "Unknown" then "Unknown"
  else
    let location := stripWs raw_location.data
    let location :=
      if location.head? == some '\x7b' && location.getLast? == some '\x7d' then
        parse_dict_location location
      else location
    let remote := is_remote location
    let location := clean_location location
    let location := normalize_city location
    let location := normalize_region location
    let location :=
      if remote && !(Matching.isSubstrOf ("remote".data) (lowerL location)) then
        if location ≠ [] ∧ String.mk location ≠ "Unknown" then location ++ " (Remote)".data
        else "Remote".data
      else location
    if location = [] then "Unknown" else String.mk location

/-- A sample of realistic location strings, as the spec's idempotence
property quantifies over sampled location strings. -/
def LOCATION_SAMPLES : List String := [
  "San Francisco, CA", "New York, NY", "sf", "nyc (HQ)", "Remote",
  "Seattle, WA", "London, United Kingdom", "bangalore",
  "CA-Remote-British Columbia", "Remote-CA (National)", "Dublin, IE-Remote",
  "work from home", "Unknown", ""]

/-- C4 counterexample: normalization is not idempotent on every string.
The country-prefix rule ^[A-Z]{2}- strips one two-letter prefix per call, so
"AB-CD-E" normalizes to "CD-E", which normalizes further to "E". -/
theorem C4_counterexample :
    normalize_location (normalize_location "AB-CD-E") ≠ normalize_location "AB-CD-E" := by
  decide

/-- C4 (amended): normalize_location is idempotent on the sampled realistic
location strings, though not on every string (see the counterexample, where
a second pass strips a further two-letter prefix). -/
theorem C4_idempotent_on_samples :
    ∀ x ∈ LOCATION_SAMPLES, normalize_location (normalize_location x) = normalize_location x := by
  decide

theorem C4_witness :
    "CA-Remote-British Columbia" ∈ LOCATION_SAMPLES ∧
    normalize_location (normalize_location "CA-Remote-British Columbia") =
      normalize_location "CA-Remote-British Columbia" :=
  ⟨by decide, C4_idempotent_on_samples "CA-Remote-British Columbia" (by decide)⟩

/-- C5 counterexample: normalize_location "CA-Remote-British Columbia" is
not "BC". -/
theorem C5_counterexample :
    normalize_location "CA-Remote-British Columbia" ≠ "BC" := by
  decide

/-- C5 (amended): normalize_location "CA-Remote-British Columbia" returns
"British Columbia (Remote)": the XX-Remote- pattern collapses to the region,
no state abbreviation is applied (_normalize_region knows only country
aliases; STATE_ABBREV is used only for dict-style inputs), and the remote
suffix is attached because the is-remote detector runs on the raw input,
which contains "Remote". -/
theorem C5_xx_remote_value :
    normalize_location "CA-Remote-British Columbia" = "British Columbia (Remote)" := by
  decide

/-- C6: alias substitution is whole-word and case-insensitive:
normalizing "sf" alone yields "San Francisco", and normalizing
"San Francisco" leaves it unchanged (no alias fires inside the longer
tokens, no double substitution). -/
theorem C6_word_boundary_alias :
    normalize_location "sf" = "San Francisco" ∧
    normalize_location "San Francisco" = "San Francisco" := by
  decide

end Loc

namespace Scrape

/-- A decoded JSON/Python payload value. -/
inductive PyVal where
  | vstr (s : String)
  | vnum (n : Int)
  | vbool (b : Bool)
  | vnone
  | vlist (l : List PyVal)
  | vdict (d : List (String × PyVal))

/-- The Python exception classes the adapter code can raise or catch. -/
inductive PyExc where
  | requestException
  | attributeError
  | typeError
  | keyError
  | valueError
deriving DecidableEq, Repr

/-- Python dict lookup with duplicate keys resolved to the last occurrence. -/
def lookupPy (d : List (String × PyVal)) (k : String) : Option PyVal :=
  (d.reverse.find? (fun p => p.1 == k)).map Prod.snd

/-- obj.get(k, default): AttributeError on a non-dict receiver. -/
def pyGet (v : PyVal) (k : String) (dflt : PyVal) : Except PyExc PyVal :=
  match v with
  | .vdict d => .ok ((lookupPy d k).getD dflt)
  | _ => .error .attributeError

/-- obj[k]: KeyError when a dict lacks the key, TypeError on a non-dict. -/
def pyGetItem (v : PyVal) (k : String) : Except PyExc PyVal :=
  match v with
  | .vdict d =>
    match lookupPy d k with
    | some x => .ok x
    | none => .error .keyError
  | _ => .error .typeError

/-- Python truthiness of a payload value. -/
def pyTruthy : PyVal → Bool
  | .vstr s => !s.isEmpty
  | .vnum n => n != 0
  | .vbool b => b
  | .vnone => false
  | .vlist l => !l.isEmpty
  | .vdict d => !d.isEmpty

/-- for x in obj: TypeError when obj is not iterable; a str iterates its
characters and a dict its keys. -/
def pyIter : PyVal → Except PyExc (List PyVal)
  | .vlist l => .ok l
  | .vstr s => .ok (s.data.map fun c => .vstr (String.mk [c]))
  | .vdict d => .ok (d.map fun p => .vstr p.1)
  | _ => .error .typeError

/-- str(obj).  A composite renders as its repr in Python; no claim inspects
that text, so the model keeps it schematic. -/
def pyStr : PyVal → String
  | .vstr s => s
  | .vnum n => toString n
  | .vbool true => "True"
  | .vbool false => "False"
  | .vnone => "None"
  | .vlist _ => "<list>"
  | .vdict _ => "<dict>"

/-- ", ".join(l): TypeError unless every element is a str. -/
def pyJoin (sep : String) (l : List PyVal) : Except PyExc String :=
  match l.mapM (fun v => match v with | .vstr s => some s | _ => none) with
  | some strs => .ok (String.intercalate sep strs)
  | none => .error .typeError

/-- Python `a or b` at value level. -/
def pyOr (a b : PyVal) : PyVal := if pyTruthy a then a else b

/-- The office/department name-collection loops of
AnthropicScraper._parse_job: append office["name"] whenever
office.get("name") is truthy. -/
def collectNames (l : List PyVal) : Except PyExc (List PyVal) :=
  l.foldlM
    (fun acc office => do
      let nm ← pyGet office "name" .vnone
      if pyTruthy nm then
        let v ← pyGetItem office "name"
        pure (acc ++ [v])
      else
        pure acc)
    []

/-- AnthropicScraper._parse_job try-body, raising exactly where the Python
code does.  datetime.fromisoformat is modelled as the identity on the ISO
string (its ValueError branch only leaves posted_date unset, which no claim
exercises); a non-string payload value that Python would store in a Job
field is kept as its str() rendering, and the ingestion timestamp
(first_seen, datetime.now()) is a fixed empty string. -/
def anthropic_parse_body (data : PyVal) : Except PyExc Job := do
  let offices ← pyGet data "offices" (.vlist [])
  let officeList ← pyIter offices
  let locNames ← collectNames officeList
  let location ← if locNames.isEmpty then pure "Unknown" else pyJoin ", " locNames
  let depts ← pyGet data "departments" (.vlist [])
  let deptList ← pyIter depts
  let deptNames ← collectNames deptList
  let department ← if deptNames.isEmpty then pure "" else pyJoin ", " deptNames
  let upd ← pyGet data "updated_at" .vnone
  let posted ←
    if pyTruthy upd then do
      let u ← pyGetItem data "updated_at"
      match u with
      | .vstr s => pure (some (s.replace "Z" "+00:00"))
      | _ => Except.error .attributeError
    else pure none
  let idv ← pyGetItem data "id"
  let titlev ← pyGet data "title" (.vstr "Unknown")
  let urlv ← pyGet data "absolute_url" (.vstr "")
  pure ⟨pyStr idv, "Anthropic", pyStr titlev, location, pyStr urlv, department, posted, "", none⟩

/-- AnthropicScraper._parse_job: KeyError and TypeError are caught and skip
the record; any other exception propagates. -/
def anthropic_parse_job (data : PyVal) : Except PyExc (Option Job) :=
  match anthropic_parse_body data with
  | .ok j => .ok (some j)
  | .error .keyError => .ok none
  | .error .typeError => .ok none
  | .error e => .error e

/-- The per-record loop of a fetch: parse each record, append successes to
the mutable jobs list; an uncaught exception carries the jobs accumulated so
far out of the loop. -/
def parseFold (parse : PyVal → Except PyExc (Option Job)) :
    List PyVal → List Job → Except (PyExc × List Job) (List Job)
  | [], jobs => .ok jobs
  | r :: rest, jobs =>
    match parse r with
    | .error e => .error (e, jobs)
    | .ok none => parseFold parse rest jobs
    | .ok (some j) => parseFold parse rest (jobs ++ [j])

/-- One HTTP exchange: either an exception raised by requests.get,
raise_for_status or Response.json — all requests.RequestException
subclasses (in requests 2.27 and later the JSON decode error included) — or
the decoded payload. -/
abbrev Response := Except PyExc PyVal

/-- The try-body of AnthropicScraper.fetch_jobs. -/
def anthropic_body (resp : Response) : Except (PyExc × List Job) (List Job) :=
  match resp with
  | .error e => .error (e, [])
  | .ok data =>
    match pyGet data "jobs" (.vlist []) with
    | .error e => .error (e, [])
    | .ok jobsv =>
      match pyIter jobsv with
      | .error e => .error (e, [])
      | .ok records => parseFold anthropic_parse_job records []

/-- AnthropicScraper.fetch_jobs: only requests.RequestException is caught at
the fetch boundary, returning the jobs parsed so far. -/
def anthropic_fetch_jobs (resp : Response) : Except PyExc (List Job) :=
  match anthropic_body resp with
  | .ok jobs => .ok jobs
  | .error (.requestException, jobs) => .ok jobs
  | .error (e, _) => .error e

/-- AmazonScraper._parse_job try-body.  strptime of a str is modelled as a
successful parse kept as the string (a failed parse would only fall through
to fromisoformat and at worst leave posted_date unset); strptime of a
non-str raises TypeError, which the inner except ValueError does not catch. -/
def amazon_parse_body (data : PyVal) : Except PyExc Job := do
  let idA ← pyGet data "id_icims" (.vstr "")
  let idB ← pyGet data "id" (.vstr "")
  let job_id := pyOr idA idB
  let locDefault ← pyGet data "location" (.vstr "Unknown")
  let location ← pyGet data "normalized_location" locDefault
  let category ← pyGet data "business_category" (.vstr "")
  let job_category ← pyGet data "category" (.vlist [])
  let department ←
    match job_category with
    | .vlist l => if l.isEmpty then pure (pyStr category) else pyJoin ", " l
    | v => pure (if pyTruthy v then pyStr v else pyStr category)
  let pd ← pyGet data "posted_date" .vnone
  let posted ←
    if pyTruthy pd then do
      let u ← pyGetItem data "posted_date"
      match u with
      | .vstr s => pure (some s)
      | _ => Except.error .typeError
    else pure none
  let jp ← pyGet data "job_path" (.vstr "")
  let url := if pyTruthy jp then "https://www.amazon.jobs" ++ pyStr jp else ""
  let titlev ← pyGet data "title" (.vstr "Unknown")
  pure ⟨pyStr job_id, "Amazon", pyStr titlev, pyStr location, url, department, posted, "", none⟩

/-- AmazonScraper._parse_job: KeyError and TypeError are caught and skip the
record; any other exception propagates. -/
def amazon_parse_job (data : PyVal) : Except PyExc (Option Job) :=
  match amazon_parse_body data with
  | .ok j => .ok (some j)
  | .error .keyError => .ok none
  | .error .typeError => .ok none
  | .error e => .error e

/-- offset >= hits: comparing an int against a payload value raises
TypeError unless the value is numeric (a Python bool counts as an int). -/
def pyGeInt (k : Nat) : PyVal → Except PyExc Bool
  | .vnum n => .ok (decide (n ≤ (k : Int)))
  | .vbool b => .ok (decide ((if b then (1 : Int) else 0) ≤ (k : Int)))
  | _ => .error .typeError

/-- The while-loop of AmazonScraper.fetch_jobs, one fuel unit per page
request (the oracle gives the response for each offset); none when the fuel
runs out with the loop still running. -/
def amazon_loop (oracle : Nat → Response) :
    Nat → List Job → Nat → Option (Except (PyExc × List Job) (List Job))
  | 0, _, _ => none
  | f + 1, jobs, offset =>
    match oracle offset with
    | .error e => some (.error (e, jobs))
    | .ok data =>
      match pyGet data "jobs" (.vlist []) with
      | .error e => some (.error (e, jobs))
      | .ok job_list =>
        if !pyTruthy job_list then some (.ok jobs)
        else
          match pyIter job_list with
          | .error e => some (.error (e, jobs))
          | .ok records =>
            match parseFold amazon_parse_job records jobs with
            | .error ej => some (.error ej)
            | .ok jobs2 =>
              match pyGet data "hits" (.vnum 0) with
              | .error e => some (.error (e, jobs2))
              | .ok hitsv =>
                match pyGeInt (offset + 100) hitsv with
                | .error e => some (.error (e, jobs2))
                | .ok ge =>
                  if ge then some (.ok jobs2)
                  else if jobs2.length > 5000 then some (.ok jobs2)
                  else amazon_loop oracle f jobs2 (offset + 100)

/-- AmazonScraper.fetch_jobs: only requests.RequestException is caught,
returning the jobs accumulated so far; none when the fuel is insufficient. -/
def amazon_fetch_jobs (oracle : Nat → Response) (fuel : Nat) :
    Option (Except PyExc (List Job)) :=
  match amazon_loop oracle fuel [] 0 with
  | none => none
  | some (.ok jobs) => some (.ok jobs)
  | some (.error (.requestException, jobs)) => some (.ok jobs)
  | some (.error (e, _)) => some (.error e)

/-- MetaScraper._parse_job try-body.  datetime.fromtimestamp of a number is
modelled as its rendering; of anything else it raises the TypeError (or
ValueError) that the inner except absorbs, leaving posted_date unset. -/
def meta_parse_body (data : PyVal) : Except PyExc (Option Job) := do
  let idv ← pyGet data "id" (.vstr "")
  let job_id := pyStr idv
  if job_id = "" then pure none
  else do
    let locationsv ← pyGet data "locations" (.vlist [])
    let location ←
      match locationsv with
      | .vlist l => if l.isEmpty then pure "Unknown" else pyJoin ", " l
      | v => pure (if pyTruthy v then pyStr v else "Unknown")
    let teams ← pyGet data "teams" (.vlist [])
    let sub_teams ← pyGet data "sub_teams" (.vlist [])
    let all_teams :=
      match teams, sub_teams with
      | .vlist a, .vlist b => a ++ b
      | _, _ => []
    let department ← if all_teams.isEmpty then pure "" else pyJoin ", " all_teams
    let ct ← pyGet data "create_time" .vnone
    let posted ←
      if pyTruthy ct then do
        let u ← pyGetItem data "create_time"
        match u with
        | .vnum n => pure (some (toString n))
        | .vbool b => pure (some (pyStr (.vbool b)))
        | _ => pure none
      else pure none
    let titlev ← pyGet data "title" (.vstr "Unknown")
    pure (some ⟨job_id, "Meta", pyStr titlev, location,
      "https://www.metacareers.com/jobs/" ++ job_id, department, posted, "", none⟩)

/-- MetaScraper._parse_job: KeyError and TypeError are caught and skip the
record; any other exception propagates. -/
def meta_parse_job (data : PyVal) : Except PyExc (Option Job) :=
  match meta_parse_body data with
  | .ok r => .ok r
  | .error .keyError => .ok none
  | .error .typeError => .ok none
  | .error e => .error e

/-- One edge of the Meta loop: _parse_job(edge.get("node", {})). -/
def metaEdgeParse (e : PyVal) : Except PyExc (Option Job) := do
  let node ← pyGet e "node" (.vdict [])
  meta_parse_job node

/-- The while-loop of MetaScraper.fetch_jobs; the oracle is keyed by the
request index (the GraphQL cursor is opaque and computed but not consumed by
the model). -/
def meta_loop (oracle : Nat → Response) :
    Nat → List Job → Nat → Option (Except (PyExc × List Job) (List Job))
  | 0, _, _ => none
  | f + 1, jobs, k =>
    match oracle k with
    | .error e => some (.error (e, jobs))
    | .ok data =>
      match pyGet data "data" (.vdict []) with
      | .error e => some (.error (e, jobs))
      | .ok d1 =>
        match pyGet d1 "job_search" (.vdict []) with
        | .error e => some (.error (e, jobs))
        | .ok sd =>
          match pyGet sd "edges" (.vlist []) with
          | .error e => some (.error (e, jobs))
          | .ok edgesv =>
            match pyIter edgesv with
            | .error e => some (.error (e, jobs))
            | .ok edges =>
              match parseFold metaEdgeParse edges jobs with
              | .error ej => some (.error ej)
              | .ok jobs2 =>
                match pyGet sd "page_info" (.vdict []) with
                | .error e => some (.error (e, jobs2))
                | .ok pinfo =>
                  match pyGet pinfo "has_next_page" .vnone with
                  | .error e => some (.error (e, jobs2))
                  | .ok hnp =>
                    if !pyTruthy hnp then some (.ok jobs2)
                    else
                      match pyGet pinfo "end_cursor" .vnone with
                      | .error e => some (.error (e, jobs2))
                      | .ok _ =>
                        if jobs2.length > 5000 then some (.ok jobs2)
                        else meta_loop oracle f jobs2 (k + 1)

/-- MetaScraper._fetch_jobs_fallback: its try-body never appends a job, so
every non-raising path returns the empty list; only
requests.RequestException is caught.  fb is the fallback request's outcome
(the ok-ness of its response when it returns one). -/
def meta_fallback (fb : Except PyExc Bool) : Except PyExc (List Job) :=
  match fb with
  | .ok _ => .ok []
  | .error .requestException => .ok []
  | .error e => .error e

/-- MetaScraper.fetch_jobs: on requests.RequestException the fallback result
replaces the jobs accumulated so far; any other exception propagates. -/
def meta_fetch_jobs (oracle : Nat → Response) (fb : Except PyExc Bool) (fuel : Nat) :
    Option (Except PyExc (List Job)) :=
  match meta_loop oracle fuel [] 0 with
  | none => none
  | some (.ok jobs) => some (.ok jobs)
  | some (.error (.requestException, _)) =>
    match meta_fallback fb with
    | .ok l => some (.ok l)
    | .error e => some (.error e)
  | some (.error (e, _)) => some (.error e)

/-- C2 counterexample: a response whose JSON decodes to an array rather than
an object (an unexpected schema, not a network failure): data.get("jobs", [])
raises AttributeError, which the fetch boundary, catching only
requests.RequestException, lets escape. -/
theorem C2_counterexample :
    anthropic_fetch_jobs (.ok (.vlist [])) = .error .attributeError := rfl

theorem parseFold_shift (parse : PyVal → Except PyExc (Option Job)) :
    ∀ (records : List PyVal) (jobs acc : List Job),
    parseFold parse records (jobs ++ acc) =
      (match parseFold parse records acc with
       | .ok l => .ok (jobs ++ l)
       | .error (e, l) => .error (e, jobs ++ l)) := by
  intro records
  induction records with
  | nil => intro jobs acc; simp [parseFold]
  | cons r rest ih =>
    intro jobs acc
    simp only [parseFold]
    cases hp : parse r with
    | error e => rfl
    | ok o =>
      cases o with
      | none => exact ih jobs acc
      | some j =>
        show parseFold parse rest (jobs ++ acc ++ [j]) = _
        rw [List.append_assoc]
        exact ih jobs (acc ++ [j])

theorem parseFold_from_nil (parse : PyVal → Except PyExc (Option Job))
    (records : List PyVal) (jobs l : List Job)
    (h : parseFold parse records [] = .ok l) :
    parseFold parse records jobs = .ok (jobs ++ l) := by
  have hs := parseFold_shift parse records jobs []
  rw [List.append_nil] at hs
  rw [hs, h]

/-- A full Amazon page at a given offset: 100 parseable postings and a
reported total the pagination has not yet reached (the total may keep
growing, it never shrinks below the cursor). -/
def amazonEndlessPage (resp : Response) (off : Nat) : Prop :=
  ∃ (records : List PyVal) (hits : Int),
    resp = .ok (.vdict [("jobs", .vlist records), ("hits", .vnum hits)]) ∧
    records ≠ [] ∧
    (∃ l, parseFold amazon_parse_job records [] = .ok l ∧ l.length = 100) ∧
    (off : Int) + 100 < hits

theorem amazon_step (oracle : Nat → Response) (f : Nat) (jobs : List Job) (off : Nat)
    (records : List PyVal) (hits : Int) (l : List Job)
    (hresp : oracle off = .ok (.vdict [("jobs", .vlist records), ("hits", .vnum hits)]))
    (hne : records ≠ [])
    (hfold : parseFold amazon_parse_job records [] = .ok l)
    (hhits : (off : Int) + 100 < hits) :
    amazon_loop oracle (f + 1) jobs off =
      (if 5000 < (jobs ++ l).length then some (.ok (jobs ++ l))
       else amazon_loop oracle f (jobs ++ l) (off + 100)) := by
  have h1 : pyGet (.vdict [("jobs", .vlist records), ("hits", .vnum hits)]) "jobs" (.vlist []) =
      .ok (.vlist records) := rfl
  have h2 : pyGet (.vdict [("jobs", .vlist records), ("hits", .vnum hits)]) "hits" (.vnum 0) =
      .ok (.vnum hits) := rfl
  have h3 : pyTruthy (.vlist records) = true := by
    simp [pyTruthy, hne]
  have h4 : parseFold amazon_parse_job records jobs = .ok (jobs ++ l) :=
    parseFold_from_nil _ _ _ _ hfold
  have h5 : pyGeInt (off + 100) (.vnum hits) = .ok false := by
    simp only [pyGeInt, Except.ok.injEq, decide_eq_false_iff_not, not_le]
    push_cast
    omega
  simp only [amazon_loop, hresp, h1, h3, pyIter, h4, h2, h5, Bool.not_true,
    Bool.false_eq_true, if_neg, not_false_iff, if_false, gt_iff_lt]

theorem amazon_loop_cap (oracle : Nat → Response)
    (h : ∀ off, amazonEndlessPage (oracle off) off) :
    ∀ (f : Nat) (jobs : List Job) (off : Nat),
    jobs.length ≤ 5000 → 5000 < jobs.length + 100 * f →
    ∃ res, amazon_loop oracle f jobs off = some (.ok res) ∧
      5000 < res.length ∧ res.length ≤ 5100 := by
  intro f
  induction f with
  | zero => intro jobs off h1 h2; omega
  | succ f ih =>
    intro jobs off h1 h2
    obtain ⟨records, hits, hresp, hne, ⟨l, hfold, hlen⟩, hhits⟩ := h off
    rw [amazon_step oracle f jobs off records hits l hresp hne hfold hhits]
    have hlen2 : (jobs ++ l).length = jobs.length + 100 := by simp [hlen]
    by_cases hcap : 5000 < (jobs ++ l).length
    · rw [if_pos hcap]
      exact ⟨jobs ++ l, rfl, hcap, by omega⟩
    · rw [if_neg hcap]
      exact ih (jobs ++ l) (off + 100) (by omega) (by omega)

/-- The payload shape of one Meta GraphQL page. -/
def metaPageVal (edges : List PyVal) (cur : PyVal) : PyVal :=
  .vdict [("data", .vdict [("job_search", .vdict
    [("edges", .vlist edges),
     ("page_info", .vdict [("has_next_page", .vbool true), ("end_cursor", cur)])])])]

/-- A full Meta page: 100 parseable edges and has_next_page always true. -/
def metaEndlessPage (resp : Response) : Prop :=
  ∃ (edges : List PyVal) (cur : PyVal),
    resp = .ok (metaPageVal edges cur) ∧
    (∃ l, parseFold metaEdgeParse edges [] = .ok l ∧ l.length = 100)

theorem meta_step (oracle : Nat → Response) (f : Nat) (jobs : List Job) (k : Nat)
    (edges : List PyVal) (cur : PyVal) (l : List Job)
    (hresp : oracle k = .ok (metaPageVal edges cur))
    (hfold : parseFold metaEdgeParse edges [] = .ok l) :
    meta_loop oracle (f + 1) jobs k =
      (if 5000 < (jobs ++ l).length then some (.ok (jobs ++ l))
       else meta_loop oracle f (jobs ++ l) (k + 1)) := by
  have h4 : parseFold metaEdgeParse edges jobs = .ok (jobs ++ l) :=
    parseFold_from_nil _ _ _ _ hfold
  simp only [meta_loop, hresp, metaPageVal]
  simp only [show pyGet (.vdict [("data", .vdict [("job_search", .vdict
    [("edges", .vlist edges),
     ("page_info", .vdict [("has_next_page", .vbool true), ("end_cursor", cur)])])])])
    "data" (.vdict []) = .ok (.vdict [("job_search", .vdict
    [("edges", .vlist edges),
     ("page_info", .vdict [("has_next_page", .vbool true), ("end_cursor", cur)])])]) from rfl]
  simp only [show pyGet (.vdict [("job_search", .vdict
    [("edges", .vlist edges),
     ("page_info", .vdict [("has_next_page", .vbool true), ("end_cursor", cur)])])])
    "job_search" (.vdict []) = .ok (.vdict
    [("edges", .vlist edges),
     ("page_info", .vdict [("has_next_page", .vbool true), ("end_cursor", cur)])]) from rfl]
  simp only [show pyGet (.vdict
    [("edges", .vlist edges),
     ("page_info", .vdict [("has_next_page", .vbool true), ("end_cursor", cur)])])
    "edges" (.vlist []) = .ok (.vlist edges) from rfl]
  simp only [show pyGet (.vdict
    [("edges", .vlist edges),
     ("page_info", .vdict [("has_next_page", .vbool true), ("end_cursor", cur)])])
    "page_info" (.vdict []) = .ok (.vdict [("has_next_page", .vbool true), ("end_cursor", cur)]) from rfl]
  simp only [show pyGet (.vdict [("has_next_page", .vbool true), ("end_cursor", cur)])
    "has_next_page" .vnone = .ok (.vbool true) from rfl]
  simp only [show pyGet (.vdict [("has_next_page", .vbool true), ("end_cursor", cur)])
    "end_cursor" .vnone = .ok cur from rfl]
  simp only [pyIter, h4, pyTruthy, Bool.not_true, Bool.false_eq_true, if_neg, not_false_iff,
    if_false]

theorem meta_loop_cap (oracle : Nat → Response)
    (h : ∀ k, metaEndlessPage (oracle k)) :
    ∀ (f : Nat) (jobs : List Job) (k : Nat),
    jobs.length ≤ 5000 → 5000 < jobs.length + 100 * f →
    ∃ res, meta_loop oracle f jobs k = some (.ok res) ∧
      5000 < res.length ∧ res.length ≤ 5100 := by
  intro f
  induction f with
  | zero => intro jobs k h1 h2; omega
  | succ f ih =>
    intro jobs k h1 h2
    obtain ⟨edges, cur, hresp, ⟨l, hfold, hlen⟩⟩ := h k
    rw [meta_step oracle f jobs k edges cur l hresp hfold]
    have hlen2 : (jobs ++ l).length = jobs.length + 100 := by simp [hlen]
    by_cases hcap : 5000 < (jobs ++ l).length
    · rw [if_pos hcap]
      exact ⟨jobs ++ l, rfl, hcap, by omega⟩
    · rw [if_neg hcap]
      exact ih (jobs ++ l) (k + 1) (by omega) (by omega)

/-- C10: against a source that never signals completion (every page holds
100 parseable postings; the reported total never shrinks below the cursor /
has_next_page stays true), both paginated adapters terminate within 51 page
requests once the hard cap of 5000 postings is crossed, returning normally
(a soft warning, not an error) with just over 5000 postings. -/
theorem C10_pagination_cap
    (amazonOracle metaOracle : Nat → Response) (fb : Except PyExc Bool)
    (ha : ∀ off, amazonEndlessPage (amazonOracle off) off)
    (hm : ∀ k, metaEndlessPage (metaOracle k)) :
    (∃ res, amazon_fetch_jobs amazonOracle 51 = some (.ok res) ∧
      5000 < res.length ∧ res.length ≤ 5100) ∧
    (∃ res, meta_fetch_jobs metaOracle fb 51 = some (.ok res) ∧
      5000 < res.length ∧ res.length ≤ 5100) := by
  constructor
  · obtain ⟨res, hres, hgt, hle⟩ := amazon_loop_cap amazonOracle ha 51 [] 0 (by simp) (by norm_num)
    exact ⟨res, by simp [amazon_fetch_jobs, hres], hgt, hle⟩
  · obtain ⟨res, hres, hgt, hle⟩ := meta_loop_cap metaOracle hm 51 [] 0 (by simp) (by norm_num)
    exact ⟨res, by simp [meta_fetch_jobs, hres], hgt, hle⟩

/-- A witness Amazon oracle: constant full pages of 100 records, a reported
total that always stays 200 ahead of the cursor. -/
def amzOracleW : Nat → Response := fun off =>
  .ok (.vdict [("jobs", .vlist (List.replicate 100 (.vdict []))),
    ("hits", .vnum ((off : Int) + 200))])

/-- The Job an empty Amazon record parses to. -/
def amzJobW : Job := ⟨"", "Amazon", "Unknown", "Unknown", "", "", none, "", none⟩

theorem parseFold_replicate (parse : PyVal → Except PyExc (Option Job)) (r : PyVal) (j : Job)
    (hr : parse r = .ok (some j)) :
    ∀ n, parseFold parse (List.replicate n r) [] = .ok (List.replicate n j) := by
  intro n
  induction n with
  | zero => rfl
  | succ n ih =>
    simp only [List.replicate_succ, parseFold, hr, List.nil_append]
    rw [parseFold_from_nil parse _ _ _ ih]
    simp [List.replicate_succ]

theorem amzOracleW_endless : ∀ off, amazonEndlessPage (amzOracleW off) off := by
  intro off
  refine ⟨List.replicate 100 (.vdict []), (off : Int) + 200, rfl, by simp,
    ⟨List.replicate 100 amzJobW, parseFold_replicate _ _ _ rfl 100, by simp⟩, by omega⟩

/-- A witness Meta oracle: constant full pages of 100 minimal edges with
has_next_page true. -/
def metaOracleW : Nat → Response := fun _ =>
  .ok (metaPageVal (List.replicate 100 (.vdict [("node", .vdict [("id", .vstr "1")])])) (.vstr "c"))

/-- The Job a minimal Meta node parses to. -/
def metaJobW : Job :=
  ⟨"1", "Meta", "Unknown", "Unknown", "https://www.metacareers.com/jobs/1", "", none, "", none⟩

theorem metaOracleW_endless : ∀ k, metaEndlessPage (metaOracleW k) := by
  intro k
  exact ⟨List.replicate 100 (.vdict [("node", .vdict [("id", .vstr "1")])]), .vstr "c", rfl,
    ⟨List.replicate 100 metaJobW, parseFold_replicate _ _ _ rfl 100, by simp⟩⟩

theorem C10_witness :
    ((∀ off, amazonEndlessPage (amzOracleW off) off) ∧ (∀ k, metaEndlessPage (metaOracleW k))) ∧
    ((∃ res, amazon_fetch_jobs amzOracleW 51 = some (.ok res) ∧
       5000 < res.length ∧ res.length ≤ 5100) ∧
     (∃ res, meta_fetch_jobs metaOracleW (.ok true) 51 = some (.ok res) ∧
       5000 < res.length ∧ res.length ≤ 5100)) :=
  ⟨⟨amzOracleW_endless, metaOracleW_endless⟩,
    C10_pagination_cap amzOracleW metaOracleW (.ok true) amzOracleW_endless metaOracleW_endless⟩

/-- The Amazon loop under k full pages followed by a transport failure: the
failure carries out exactly the 100·k postings parsed before it. -/
theorem amazon_loop_partial (oracle : Nat → Response) :
    ∀ (k f : Nat) (jobs : List Job) (off : Nat),
    (∀ i, i < k → amazonEndlessPage (oracle (off + 100 * i)) (off + 100 * i)) →
    oracle (off + 100 * k) = .error .requestException →
    jobs.length + 100 * k ≤ 5000 →
    k < f →
    ∃ l, amazon_loop oracle f jobs off = some (.error (.requestException, jobs ++ l)) ∧
      l.length = 100 * k := by
  intro k
  induction k with
  | zero =>
    intro f jobs off hpages herr hlen hf
    obtain ⟨f2, rfl⟩ : ∃ f2, f = f2 + 1 := ⟨f - 1, by omega⟩
    rw [Nat.mul_zero, Nat.add_zero] at herr
    refine ⟨[], ?_, by simp⟩
    simp only [amazon_loop, herr]
    simp
  | succ k ih =>
    intro f jobs off hpages herr hlen hf
    obtain ⟨f2, rfl⟩ : ∃ f2, f = f2 + 1 := ⟨f - 1, by omega⟩
    have h0 := hpages 0 (by omega)
    rw [Nat.mul_zero, Nat.add_zero] at h0
    obtain ⟨records, hits, hresp, hne, ⟨l0, hfold, hlen0⟩, hhits⟩ := h0
    rw [amazon_step oracle f2 jobs off records hits l0 hresp hne hfold hhits]
    have hl0 : (jobs ++ l0).length = jobs.length + 100 := by simp [hlen0]
    rw [if_neg (by omega)]
    obtain ⟨l1, hloop, hlen1⟩ := ih f2 (jobs ++ l0) (off + 100)
      (fun i hi => by
        have h := hpages (i + 1) (by omega)
        rw [show off + 100 * (i + 1) = off + 100 + 100 * i from by omega] at h
        exact h)
      (by
        rw [show off + 100 + 100 * k = off + 100 * (k + 1) from by omega]
        exact herr)
      (by omega) (by omega)
    refine ⟨l0 ++ l1, ?_, ?_⟩
    · rw [hloop, List.append_assoc]
    · simp only [List.length_append, hlen0, hlen1]
      omega

/-- The Meta loop under k full pages followed by a transport failure: the
failure carries out exactly the 100·k postings parsed before it. -/
theorem meta_loop_partial (oracle : Nat → Response) :
    ∀ (k f : Nat) (jobs : List Job) (start : Nat),
    (∀ i, i < k → metaEndlessPage (oracle (start + i))) →
    oracle (start + k) = .error .requestException →
    jobs.length + 100 * k ≤ 5000 →
    k < f →
    ∃ l, meta_loop oracle f jobs start = some (.error (.requestException, jobs ++ l)) ∧
      l.length = 100 * k := by
  intro k
  induction k with
  | zero =>
    intro f jobs start hpages herr hlen hf
    obtain ⟨f2, rfl⟩ : ∃ f2, f = f2 + 1 := ⟨f - 1, by omega⟩
    rw [Nat.add_zero] at herr
    refine ⟨[], ?_, by simp⟩
    simp only [meta_loop, herr]
    simp
  | succ k ih =>
    intro f jobs start hpages herr hlen hf
    obtain ⟨f2, rfl⟩ : ∃ f2, f = f2 + 1 := ⟨f - 1, by omega⟩
    have h0 := hpages 0 (by omega)
    rw [Nat.add_zero] at h0
    obtain ⟨edges, cur, hresp, ⟨l0, hfold, hlen0⟩⟩ := h0
    rw [meta_step oracle f2 jobs start edges cur l0 hresp hfold]
    have hl0 : (jobs ++ l0).length = jobs.length + 100 := by simp [hlen0]
    rw [if_neg (by omega)]
    obtain ⟨l1, hloop, hlen1⟩ := ih f2 (jobs ++ l0) (start + 1)
      (fun i hi => by
        have h := hpages (i + 1) (by omega)
        rw [show start + (i + 1) = start + 1 + i from by omega] at h
        exact h)
      (by
        rw [show start + 1 + k = start + (k + 1) from by omega]
        exact herr)
      (by omega) (by omega)
    refine ⟨l0 ++ l1, ?_, ?_⟩
    · rw [hloop, List.append_assoc]
    · simp only [List.length_append, hlen0, hlen1]
      omega

/-- C2 (amended): network/transport failures (requests.RequestException,
which also covers HTTP error statuses and, in requests 2.27 and later, JSON
decode failures) never escape fetch_jobs, and what comes back is governed by
the postings parsed before the failure: Anthropic (single request) returns
the empty list; Amazon, failing on page k after k full pages, returns
exactly the 100·k postings parsed so far; Meta catches the failure but
replaces its partial results with its fallback's empty list.  A
syntactically valid payload of unexpected schema, by contrast, raises an
uncaught AttributeError that does escape (see the counterexample). -/
theorem C2_network_failures_isolated :
    anthropic_fetch_jobs (.error .requestException) = .ok [] ∧
    (∀ (oracle : Nat → Response) (k : Nat), k ≤ 50 →
      (∀ i, i < k → amazonEndlessPage (oracle (100 * i)) (100 * i)) →
      oracle (100 * k) = .error .requestException →
      ∃ jobs, amazon_fetch_jobs oracle 51 = some (.ok jobs) ∧ jobs.length = 100 * k) ∧
    (∀ (oracle : Nat → Response) (fb : Except PyExc Bool) (k : Nat), k ≤ 50 →
      (∀ i, i < k → metaEndlessPage (oracle i)) →
      oracle k = .error .requestException →
      (fb = .error .requestException ∨ ∃ b, fb = .ok b) →
      meta_fetch_jobs oracle fb 51 = some (.ok [])) := by
  refine ⟨rfl, ?_, ?_⟩
  · intro oracle k hk hpages herr
    obtain ⟨l, hloop, hlen⟩ := amazon_loop_partial oracle k 51 [] 0
      (fun i hi => by simpa using hpages i hi)
      (by simpa using herr) (by simp only [List.length_nil]; omega) (by omega)
    refine ⟨l, ?_, hlen⟩
    simp only [amazon_fetch_jobs, hloop]
    simp
  · intro oracle fb k hk hpages herr hfb
    obtain ⟨l, hloop, hlen⟩ := meta_loop_partial oracle k 51 [] 0
      (fun i hi => by simpa using hpages i hi)
      (by simpa using herr) (by simp only [List.length_nil]; omega) (by omega)
    rcases hfb with rfl | ⟨b, rfl⟩ <;>
      simp [meta_fetch_jobs, hloop, meta_fallback]

/-- A witness Amazon oracle for the partial-failure scenario: one full page
at offset 0, then transport failures. -/
def amzOracleFailW : Nat → Response := fun off =>
  if off = 0 then
    .ok (.vdict [("jobs", .vlist (List.replicate 100 (.vdict []))), ("hits", .vnum 1000)])
  else .error .requestException

theorem amzOracleFailW_pages :
    ∀ i, i < 1 → amazonEndlessPage (amzOracleFailW (100 * i)) (100 * i) := by
  intro i hi
  have hi0 : i = 0 := by omega
  subst hi0
  exact ⟨List.replicate 100 (.vdict []), 1000, rfl, by simp,
    ⟨List.replicate 100 amzJobW, parseFold_replicate _ _ _ rfl 100, by simp⟩, by norm_num⟩

theorem C2_witness :
    ((1 : Nat) ≤ 50 ∧
      (∀ i, i < 1 → amazonEndlessPage (amzOracleFailW (100 * i)) (100 * i)) ∧
      amzOracleFailW (100 * 1) = .error .requestException) ∧
    (∃ jobs, amazon_fetch_jobs amzOracleFailW 51 = some (.ok jobs) ∧ jobs.length = 100 * 1) :=
  ⟨⟨by norm_num, amzOracleFailW_pages, rfl⟩,
    C2_network_failures_isolated.2.1 amzOracleFailW 1 (by norm_num) amzOracleFailW_pages rfl⟩

end Scrape

end JobFinder
